import Mathlib

/-!
Verification of the blog-cms markdown ingestion pipeline.

This file gives a shallow embedding, over `List Char`, of the pure text
processing code of the repository:

* `parseFrontmatter`, `generateSlug`, `estimateReadTime` from
  `supabase/functions/process-markdown/index.ts` (the same
  `parseFrontmatter` is duplicated verbatim in `src/pages/Editor.tsx`
  and other files),
* `generateFrontmatter` from `src/pages/Editor.tsx`,
* the tag-reconciliation block of the edge function and of the save
  handlers (`Editor.handleSave`, `SettingsModal.handleSave`,
  `ArticleManager.replaceArticle`), modelled against an explicit
  database state,
* the `Deno.serve` happy-path handler of the edge function.

Strings are embedded as `List Char` (`Str`).  JavaScript's Unicode
notion of whitespace and of lower-casing is modelled on the ASCII
range, which covers every character class the repository's regexes use.
Effects are made explicit: the current time is a parameter `now`, the
database is an explicit record, and database errors are out of scope
(every claim below concerns the sequential happy path or the state
reached between two sequential writes).
-/

/-- Strings of the modelled program, as explicit character lists. -/
abbrev Str := List Char

/-- Converts a Lean string literal to the character-list representation. -/
def str (s : String) : Str := s.data

/-- Embeds the character class `\s` of JavaScript regexes, restricted to
the ASCII range: space, tab, line feed, carriage return, vertical tab and
form feed. -/
def jsWhitespace (c : Char) : Bool :=
  c = ' ' || c = '\t' || c = '\n' || c = '\r' || c = '\u000b' || c = '\u000c'

/-- Embeds `String.prototype.trim`: removes whitespace from both ends. -/
def jsTrim (s : Str) : Str :=
  ((s.dropWhile jsWhitespace).reverse.dropWhile jsWhitespace).reverse

/-- Embeds `value.replace(/^"|"$/g, "")`: removes one leading and one
trailing double-quote character, each when present. -/
def stripQuotes (s : Str) : Str :=
  let s1 := match s with
    | '"' :: t => t
    | _ => s
  if s1.getLast? = some '"' then s1.dropLast else s1

/-- Embeds `String.prototype.split` on a single-character separator:
always returns at least one (possibly empty) chunk. -/
def splitOn (sep : Char) : Str → List Str
  | [] => [[]]
  | c :: t =>
    if c = sep then [] :: splitOn sep t
    else
      match splitOn sep t with
      | [] => [[c]]
      | h :: r => (c :: h) :: r

/-- Embeds `Array.prototype.join` on a single-character separator. -/
def joinSep (sep : Char) : List Str → Str
  | [] => []
  | [l] => l
  | l :: ls => l ++ sep :: joinSep sep ls

/-! ### The frontmatter regex

`/^---\s*\n([\s\S]*?)\n---\s*\n([\s\S]*)$/` is embedded with the
backtracking priorities of a JavaScript regex engine: the two `\s*`
are greedy, the first capture group is lazy (the earliest closing
delimiter wins), and the final group always succeeds. -/

/-- Matches `\s*\n` greedily at the start of the text (the longest
whitespace prefix that ends just before a newline), returning the
remainder.  Used for the two `\s*\n` of the frontmatter regex where the
rest of the pattern cannot fail. -/
def matchWsNl : Str → Option Str
  | [] => none
  | c :: t =>
    if jsWhitespace c then
      match matchWsNl t with
      | some r => some r
      | none => if c = '\n' then some t else none
    else none

/-- Matches `---\s*\n` at the start of the text. -/
def dashClose (t : Str) : Option Str :=
  match t with
  | a :: b :: c :: r => if a = '-' ∧ b = '-' ∧ c = '-' then matchWsNl r else none
  | _ => none

/-- Finds the lazily-first position at which `\n---\s*\n` matches,
returning the text before it (the frontmatter capture) and the text
after it (the body capture). -/
def searchClose : Str → Option (Str × Str)
  | [] => none
  | c :: t =>
    if c = '\n' then
      match dashClose t with
      | some r => some ([], r)
      | none => (searchClose t).map (fun p => (c :: p.1, p.2))
    else (searchClose t).map (fun p => (c :: p.1, p.2))

/-- Matches the opening `\s*\n` greedily, backtracking through shorter
whitespace prefixes whenever the rest of the pattern (`searchClose`)
fails. -/
def openWsNl : Str → Option (Str × Str)
  | [] => none
  | c :: t =>
    if jsWhitespace c then
      match openWsNl t with
      | some r => some r
      | none => if c = '\n' then searchClose t else none
    else none

/-- Embeds `content.match(frontmatterRegex)`: `some (fm, body)` holds the
two capture groups when the regex matches, `none` otherwise. -/
def regexMatch (s : Str) : Option (Str × Str) :=
  match s with
  | '-' :: '-' :: '-' :: t => openWsNl t
  | _ => none

/-! ### JSON

The source calls `JSON.parse` on the `tags` value and `JSON.stringify`
on a `string[]`.  Two models are given.  `jsonParse` (further below) is
the faithful model of `JSON.parse`: it accepts the full JSON grammar
and returns the parsed value of whatever shape, as the unchecked
assignment `frontmatter.tags = JSON.parse(value)` does at runtime.
`parseJsonStringList` is its restriction to the literals that denote
arrays of strings — the values the declared `tags: string[]` interface
admits — and is used only where the value is known to be a string list
or invalid JSON, where the two models agree: the end-to-end scenario's
concrete literal and the images of `JSON.stringify` in the round-trip.
`\uXXXX` escapes for lone surrogates are outside Lean's `Char` and map
to the null character; no claim depends on them. -/

/-- The insignificant-whitespace characters of the JSON grammar. -/
def jsonWs (c : Char) : Bool :=
  c = ' ' || c = '\t' || c = '\n' || c = '\r'

/-- Numeric value of a hexadecimal digit character. -/
def hexDigitVal (c : Char) : Option Nat :=
  if 48 ≤ c.toNat ∧ c.toNat ≤ 57 then some (c.toNat - 48)
  else if 97 ≤ c.toNat ∧ c.toNat ≤ 102 then some (c.toNat - 87)
  else if 65 ≤ c.toNat ∧ c.toNat ≤ 70 then some (c.toNat - 55)
  else none

/-- Decodes a single-character JSON escape. -/
def unescape (c : Char) : Option Char :=
  if c = '"' then some '"'
  else if c = '\\' then some '\\'
  else if c = '/' then some '/'
  else if c = 'b' then some '\u0008'
  else if c = 'f' then some '\u000c'
  else if c = 'n' then some '\n'
  else if c = 'r' then some '\r'
  else if c = 't' then some '\t'
  else none

/-- Parses the body of a JSON string after its opening quote, up to and
including the closing quote; raw control characters are rejected, as in
the JSON grammar. -/
def parseStrBody : Str → Option (Str × Str)
  | [] => none
  | c :: t =>
    if c = '"' then some ([], t)
    else if c = '\\' then
      match t with
      | [] => none
      | e :: t' =>
        if e = 'u' then
          match t' with
          | h1 :: h2 :: h3 :: h4 :: t'' =>
            match hexDigitVal h1, hexDigitVal h2, hexDigitVal h3, hexDigitVal h4 with
            | some a, some b, some c3, some d =>
              (parseStrBody t'').map
                (fun p => (Char.ofNat (4096 * a + 256 * b + 16 * c3 + d) :: p.1, p.2))
            | _, _, _, _ => none
          | _ => none
        else
          match unescape e with
          | some u => (parseStrBody t').map (fun p => (u :: p.1, p.2))
          | none => none
    else if c.toNat < 32 then none
    else (parseStrBody t).map (fun p => (c :: p.1, p.2))

/-- Parses a JSON string token. -/
def parseJString (t : Str) : Option (Str × Str) :=
  match t with
  | c :: r => if c = '"' then parseStrBody r else none
  | [] => none

/-- Parses the comma-separated string elements of a JSON array up to and
including the closing bracket.  The fuel bounds the number of elements;
each element consumes at least one character, so any fuel larger than
the input length is sufficient. -/
def parseElemsAux : Nat → Str → Option (List Str × Str)
  | 0, _ => none
  | fuel + 1, t =>
    match parseJString t with
    | none => none
    | some (s, r) =>
      match r.dropWhile jsonWs with
      | [] => none
      | c :: r2 =>
        if c = ']' then some ([s], r2)
        else if c = ',' then
          match parseElemsAux fuel (r2.dropWhile jsonWs) with
          | some (l, r3) => some (s :: l, r3)
          | none => none
        else none

/-- The string-list fragment of `JSON.parse`: `some l` exactly on the
JSON literals denoting the string array `l`, `none` otherwise.  This is
a restriction of the full model `jsonParse` below, not a model of
`JSON.parse` itself: valid JSON of any other shape also yields `none`
here while `JSON.parse` returns it.  It is only used where the two
agree (see the section comment). -/
def parseJsonStringList (t : Str) : Option (List Str) :=
  match t.dropWhile jsonWs with
  | [] => none
  | c :: r =>
    if c = '[' then
      match r.dropWhile jsonWs with
      | [] => none
      | c2 :: r2 =>
        if c2 = ']' then
          if r2.dropWhile jsonWs = [] then some [] else none
        else
          match parseElemsAux (r.length + 1) (c2 :: r2) with
          | some (l, rest) => if rest.dropWhile jsonWs = [] then some l else none
          | none => none
    else none

/-- Hexadecimal digit character (lower case), as `JSON.stringify` emits. -/
def hexDigitChar (n : Nat) : Char :=
  if n < 10 then Char.ofNat (48 + n) else Char.ofNat (87 + n)

/-- Escaping of one character inside a JSON string, as `JSON.stringify`
performs it: named escapes for quote, backslash and the five control
characters that have one, `\u00XX` for the remaining control
characters, and the raw character otherwise. -/
def escapeChar (c : Char) : Str :=
  if c = '"' then ['\\', '"']
  else if c = '\\' then ['\\', '\\']
  else if c = '\u0008' then ['\\', 'b']
  else if c = '\t' then ['\\', 't']
  else if c = '\n' then ['\\', 'n']
  else if c = '\u000c' then ['\\', 'f']
  else if c = '\r' then ['\\', 'r']
  else if c.toNat < 32 then
    ['\\', 'u', '0', '0', hexDigitChar (c.toNat / 16), hexDigitChar (c.toNat % 16)]
  else [c]

/-- Embeds `JSON.stringify` on one string. -/
def stringifyString (s : Str) : Str :=
  '"' :: ((s.map escapeChar).flatten ++ ['"'])

/-- Embeds `JSON.stringify` on a `string[]`. -/
def stringifyStringList (l : List Str) : Str :=
  '[' :: (joinSep ',' (l.map stringifyString) ++ [']'])

/-! ### Full JSON values and `JSON.parse` -/

/-- A JSON value as `JSON.parse` materializes it.  Numeric literals are
kept as their exact source text: the claims never compare numeric
values, and float decoding is outside the embedding. -/
inductive JsonVal where
  | null
  | bool (b : Bool)
  | num (lit : Str)
  | str (s : Str)
  | arr (elems : List JsonVal)
  | obj (fields : List (Str × JsonVal))
deriving Repr

/-- Request selector for the single fuelled JSON parsing function: one
value, the element list of an array after its opening bracket, or the
field list of an object after its opening brace. -/
inductive JReq where
  | val
  | arrElems
  | objFields
deriving DecidableEq, Repr

/-- Decimal digit test for the JSON number grammar. -/
def jsonDigit (c : Char) : Bool := 48 ≤ c.toNat && c.toNat ≤ 57

/-- Consumes an expected literal tail (`ull`, `rue`, `alse`). -/
def dropLit : Str → Str → Option Str
  | [], t => some t
  | c :: l, d :: t => if c = d then dropLit l t else none
  | _ :: _, [] => none

/-- Integer part of a JSON number: `0`, or a nonzero digit followed by
digits. -/
def parseIntPart : Str → Option (Str × Str)
  | [] => none
  | c :: t =>
    if c = '0' then some ([c], t)
    else if jsonDigit c then
      some (c :: t.takeWhile jsonDigit, t.dropWhile jsonDigit)
    else none

/-- Optional fraction part: nothing, or `.` followed by at least one
digit. -/
def parseFracPart : Str → Option (Str × Str)
  | [] => some ([], [])
  | c :: t =>
    if c = '.' then
      if t.takeWhile jsonDigit = [] then none
      else some (c :: t.takeWhile jsonDigit, t.dropWhile jsonDigit)
    else some ([], c :: t)

/-- Optional exponent part: nothing, or `e`/`E`, an optional sign, and
at least one digit. -/
def parseExpPart : Str → Option (Str × Str)
  | [] => some ([], [])
  | c :: t =>
    if c = 'e' ∨ c = 'E' then
      match t with
      | [] => none
      | s :: t2 =>
        if s = '+' ∨ s = '-' then
          if t2.takeWhile jsonDigit = [] then none
          else some (c :: s :: t2.takeWhile jsonDigit, t2.dropWhile jsonDigit)
        else
          if t.takeWhile jsonDigit = [] then none
          else some (c :: t.takeWhile jsonDigit, t.dropWhile jsonDigit)
    else some ([], c :: t)

/-- A JSON number literal (`-? int frac? exp?`), returned as its exact
source text. -/
def parseNumLit (t : Str) : Option (Str × Str) :=
  let sign : Str × Str :=
    match t with
    | '-' :: t1 => (['-'], t1)
    | _ => ([], t)
  match parseIntPart sign.2 with
  | none => none
  | some (ip, t2) =>
    match parseFracPart t2 with
    | none => none
    | some (fp, t3) =>
      match parseExpPart t3 with
      | none => none
      | some (ep, t4) => some (sign.1 ++ ip ++ fp ++ ep, t4)

/-- The fuelled recursive core of `jsonParse`: parses one JSON value,
or the remaining elements of an array, or the remaining fields of an
object, skipping insignificant whitespace around every token.  One
fuel unit is spent per recursive call and at least one input character
is consumed for every two units, so the fuel `jsonParse` supplies can
never run out on any input. -/
def parseJAux : Nat → JReq → Str → Option (JsonVal × Str)
  | 0, _, _ => none
  | fuel + 1, JReq.val, t0 =>
    match t0.dropWhile jsonWs with
    | [] => none
    | c :: r =>
      if c = 'n' then (dropLit (str "ull") r).map (fun rest => (JsonVal.null, rest))
      else if c = 't' then
        (dropLit (str "rue") r).map (fun rest => (JsonVal.bool true, rest))
      else if c = 'f' then
        (dropLit (str "alse") r).map (fun rest => (JsonVal.bool false, rest))
      else if c = '"' then (parseStrBody r).map (fun p => (JsonVal.str p.1, p.2))
      else if c = '[' then
        match r.dropWhile jsonWs with
        | ']' :: r2 => some (JsonVal.arr [], r2)
        | _ => parseJAux fuel JReq.arrElems (r.dropWhile jsonWs)
      else if c = '\x7b' then
        match r.dropWhile jsonWs with
        | '\x7d' :: r2 => some (JsonVal.obj [], r2)
        | _ => parseJAux fuel JReq.objFields (r.dropWhile jsonWs)
      else
        match parseNumLit (c :: r) with
        | some (lit, rest) => some (JsonVal.num lit, rest)
        | none => none
  | fuel + 1, JReq.arrElems, t =>
    match parseJAux fuel JReq.val t with
    | none => none
    | some (v, r) =>
      match r.dropWhile jsonWs with
      | [] => none
      | c :: r2 =>
        if c = ']' then some (JsonVal.arr [v], r2)
        else if c = ',' then
          match parseJAux fuel JReq.arrElems r2 with
          | some (JsonVal.arr l, r3) => some (JsonVal.arr (v :: l), r3)
          | _ => none
        else none
  | fuel + 1, JReq.objFields, t =>
    match t.dropWhile jsonWs with
    | [] => none
    | c :: r =>
      if c = '"' then
        match parseStrBody r with
        | none => none
        | some (key, r1) =>
          match r1.dropWhile jsonWs with
          | ':' :: r2 =>
            match parseJAux fuel JReq.val r2 with
            | none => none
            | some (v, r3) =>
              match r3.dropWhile jsonWs with
              | [] => none
              | c2 :: r4 =>
                if c2 = '\x7d' then some (JsonVal.obj [(key, v)], r4)
                else if c2 = ',' then
                  match parseJAux fuel JReq.objFields r4 with
                  | some (JsonVal.obj fs, r5) => some (JsonVal.obj ((key, v) :: fs), r5)
                  | _ => none
                else none
          | _ => none
      else none

/-- Embeds `JSON.parse` in full: parses one JSON value per the JSON
grammar and rejects trailing garbage; `none` stands for a thrown
`SyntaxError`.  Faithful of whatever shape the value takes — the
unchecked source assignment keeps the result even when it is not a
string array. -/
def jsonParse (t : Str) : Option JsonVal :=
  match parseJAux (2 * t.length + 4) JReq.val t with
  | none => none
  | some (v, rest) => if rest.dropWhile jsonWs = [] then some v else none

/-! ### parseFrontmatter -/

/-- The transient frontmatter structure of the source (interface
`Frontmatter`), in its declared typing: `tags : string[]`.  The
TypeScript annotation is not enforced at runtime — `FrontmatterDyn`
below keeps the tags field at its untyped runtime value; this typed
view is adequate exactly where the tags literal is a string list or
invalid JSON. -/
structure Frontmatter where
  title : Str
  excerpt : Str
  category : Str
  date : Str
  tags : List Str
deriving DecidableEq, Repr

/-- The initial frontmatter record of the parser: empty strings and an
empty tag list. -/
def emptyFrontmatter : Frontmatter := ⟨[], [], [], [], []⟩

/-- The parse result of the source (interface `ProcessedMarkdown`). -/
structure ProcessedMarkdown where
  content : Str
  frontmatter : Option Frontmatter
deriving DecidableEq, Repr

/-- One iteration of the frontmatter field loop: split the line on every
colon, take the first chunk as key and the rejoined rest, trimmed, as
value; recognized scalar keys store the unquoted value, `tags` goes
through `JSON.parse` with a catch-branch yielding `[]`, anything else is
ignored. -/
def parseLine (fm : Frontmatter) (line : Str) : Frontmatter :=
  let parts := splitOn ':' line
  let key := parts.headD []
  let value := jsTrim (joinSep ':' parts.tail)
  if key = str "title" then { fm with title := stripQuotes value }
  else if key = str "excerpt" then { fm with excerpt := stripQuotes value }
  else if key = str "category" then { fm with category := stripQuotes value }
  else if key = str "date" then { fm with date := stripQuotes value }
  else if key = str "tags" then
    { fm with tags := (parseJsonStringList value).getD [] }
  else fm

/-- The frontmatter field loop over the lines of the first capture
group. -/
def fmFold (lines : List Str) : Frontmatter :=
  lines.foldl parseLine emptyFrontmatter

/-- Embeds `parseFrontmatter` of
`supabase/functions/process-markdown/index.ts` (duplicated verbatim in
`src/pages/Editor.tsx`): when the regex does not match, the whole input
is returned as content with no metadata; otherwise the first capture is
split into lines and folded, and the trimmed second capture is the
content. -/
def parseFrontmatter (content : Str) : ProcessedMarkdown :=
  match regexMatch content with
  | none => ⟨content, none⟩
  | some (fmStr, mainContent) =>
    ⟨jsTrim mainContent, some (fmFold (splitOn '\n' fmStr))⟩

/-! ### The runtime-faithful parser

JavaScript is dynamically typed: `frontmatter.tags = JSON.parse(value)`
assigns whatever value the literal denotes, with no shape check, and
the `string[]` annotation is erased.  The `Dyn` family below is the
faithful embedding of that behavior: identical to the typed one in
every field except `tags`, which holds the full `JsonVal`. -/

/-- The frontmatter record as it exists at runtime: the tags field
holds the unchecked result of `JSON.parse` (an array for its
initializer `[]` and for the catch branch). -/
structure FrontmatterDyn where
  title : Str
  excerpt : Str
  category : Str
  date : Str
  tags : JsonVal
deriving Repr

/-- The initial runtime frontmatter record: empty strings and the empty
array literal. -/
def emptyFrontmatterDyn : FrontmatterDyn := ⟨[], [], [], [], JsonVal.arr []⟩

/-- The runtime parse result. -/
structure ProcessedMarkdownDyn where
  content : Str
  frontmatter : Option FrontmatterDyn
deriving Repr

/-- One iteration of the field loop with the unchecked tags
assignment: `JSON.parse` succeeding keeps the parsed value of whatever
shape; only a thrown `SyntaxError` reaches the catch branch's `[]`. -/
def parseLineDyn (fm : FrontmatterDyn) (line : Str) : FrontmatterDyn :=
  let parts := splitOn ':' line
  let key := parts.headD []
  let value := jsTrim (joinSep ':' parts.tail)
  if key = str "title" then { fm with title := stripQuotes value }
  else if key = str "excerpt" then { fm with excerpt := stripQuotes value }
  else if key = str "category" then { fm with category := stripQuotes value }
  else if key = str "date" then { fm with date := stripQuotes value }
  else if key = str "tags" then
    { fm with tags := (jsonParse value).getD (JsonVal.arr []) }
  else fm

/-- The field loop over the lines of the first capture group, runtime
view. -/
def fmFoldDyn (lines : List Str) : FrontmatterDyn :=
  lines.foldl parseLineDyn emptyFrontmatterDyn

/-- `parseFrontmatter` with the runtime-faithful field loop: same
regex split, same scalar handling, unchecked tags. -/
def parseFrontmatterDyn (content : Str) : ProcessedMarkdownDyn :=
  match regexMatch content with
  | none => ⟨content, none⟩
  | some (fmStr, mainContent) =>
    ⟨jsTrim mainContent, some (fmFoldDyn (splitOn '\n' fmStr))⟩

/-! ### generateSlug and estimateReadTime -/

/-- ASCII lower-casing, the fragment of `String.prototype.toLowerCase`
relevant to the slug character class. -/
def lowerAscii (c : Char) : Char :=
  if 65 ≤ c.toNat ∧ c.toNat ≤ 90 then Char.ofNat (c.toNat + 32) else c

/-- The character class `[a-z0-9\s-]` kept by the slug regex
(`replace(/[^a-z0-9\s-]/g, "")` removes its complement). -/
def slugKeep (c : Char) : Bool :=
  (97 ≤ c.toNat && c.toNat ≤ 122) || (48 ≤ c.toNat && c.toNat ≤ 57)
    || jsWhitespace c || c = '-'

/-- Replaces every maximal run of characters satisfying `p` by the
single character `rep`, embedding `replace(/X+/g, rep)`; the flag tracks
whether a run is being consumed. -/
def collapseAux (p : Char → Bool) (rep : Char) : Bool → Str → Str
  | _, [] => []
  | inRun, c :: t =>
    if p c then
      (if inRun then collapseAux p rep true t else rep :: collapseAux p rep true t)
    else c :: collapseAux p rep false t

/-- Replaces every maximal run of characters satisfying `p` by `rep`. -/
def collapseRuns (p : Char → Bool) (rep : Char) (l : Str) : Str :=
  collapseAux p rep false l

/-- Embeds `generateSlug`: lower-case, drop every character outside
`[a-z0-9\s-]`, replace whitespace runs by single hyphens, collapse
hyphen runs, then `trim()` (which removes whitespace, not hyphens). -/
def generateSlug (title : Str) : Str :=
  jsTrim (collapseRuns (fun c => c = '-') '-'
    (collapseRuns jsWhitespace '-' ((title.map lowerAscii).filter slugKeep)))

/-- Embeds `content.split(/\s+/)`: tokens between maximal whitespace
runs, with an empty leading token when the text starts with whitespace
and an empty trailing token when it ends with whitespace; the empty
text yields one empty token. -/
def splitWsAux : Bool → Str → Str → List Str
  | false, [], acc => [acc.reverse]
  | true, [], _ => [[]]
  | false, c :: t, acc =>
    if jsWhitespace c then acc.reverse :: splitWsAux true t []
    else splitWsAux false t (c :: acc)
  | true, c :: t, _ =>
    if jsWhitespace c then splitWsAux true t []
    else splitWsAux false t [c]

/-- Embeds `content.split(/\s+/)`. -/
def jsSplitWs (s : Str) : List Str := splitWsAux false s []

/-- Decimal digit character. -/
def digitChar (n : Nat) : Char := Char.ofNat (48 + n)

/-- Decimal rendering of a natural number, with fuel for structural
recursion; `natToStr` supplies sufficient fuel. -/
def natToStrAux : Nat → Nat → Str
  | 0, _ => []
  | fuel + 1, n =>
    if n < 10 then [digitChar n]
    else natToStrAux fuel (n / 10) ++ [digitChar (n % 10)]

/-- Decimal rendering of a natural number, as JavaScript string
interpolation renders the word count. -/
def natToStr (n : Nat) : Str := natToStrAux (n + 1) n

/-- The minute count of `estimateReadTime`:
`Math.ceil(wordCount / 200)`. -/
def readMinutes (content : Str) : Nat :=
  ((jsSplitWs content).length + 199) / 200

/-- Embeds `estimateReadTime`. -/
def estimateReadTime (content : Str) : Str :=
  natToStr (readMinutes content) ++ str " min read"

/-! ### generateFrontmatter -/

/-- JavaScript `||` on strings: the empty string is the only falsy
string. -/
def jsOr (a b : Str) : Str := if a = [] then b else a

/-- Wraps a value in double quotes, as the template literal of
`generateFrontmatter` does. -/
def quoteWrap (v : Str) : Str := '"' :: (v ++ ['"'])

/-- A document with a leading frontmatter block: `---`, newline, the
given lines joined by newlines, newline, `---`, newline, then the body.
This is the exact concatenation shape both the parser's regex splits
and the serializer's template emits. -/
def mkDoc (ls : List Str) (body : Str) : Str :=
  str "---\n" ++ joinSep '\n' ls ++ str "\n---\n" ++ body

/-- Embeds `generateFrontmatter` of `src/pages/Editor.tsx`: the template
literal emits quoted scalars (an empty date is replaced by
`new Date().toISOString()`, the explicit `now` parameter) and the
JSON-serialized tag list, closed by `---` and a blank line. -/
def generateFrontmatter (title excerpt category date : Str) (tags : List Str)
    (now : Str) : Str :=
  mkDoc
    [str "title: " ++ quoteWrap title,
     str "excerpt: " ++ quoteWrap excerpt,
     str "category: " ++ quoteWrap category,
     str "date: " ++ quoteWrap (jsOr date now),
     str "tags: " ++ stringifyStringList tags]
    ['\n']

/-! ### The backing store

The hosted store is modelled as an explicit record of the three tables
the source consumes, with natural-number row identifiers handed out by
per-table counters (the source delegates id generation to the store).
Each primitive below embeds one supabase statement; the handlers chain
them sequentially, exactly as the source awaits one call after the
other with no transaction. -/

/-- The `status` column of `articles`. -/
inductive ArticleStatus where
  | draft
  | published
  | archived
deriving DecidableEq, Repr

/-- A row of the `articles` table (the columns the claims mention). -/
structure ArticleRow where
  id : Nat
  title : Str
  slug : Str
  excerpt : Str
  category : Str
  read_time : Str
  status : ArticleStatus
  markdown_content : Str
  html_content : Option Str
  date : Str
deriving DecidableEq, Repr

/-- A row of the `tags` table. -/
structure TagRow where
  id : Nat
  name : Str
deriving DecidableEq, Repr

/-- The backing store: the three tables plus the id counters. -/
structure DB where
  articles : List ArticleRow := []
  tags : List TagRow := []
  article_tags : List (Nat × Nat) := []
  nextArticleId : Nat := 0
  nextTagId : Nat := 0
deriving DecidableEq, Repr

/-- Embeds `from("tags").select("id, name").in("name", tags)`: the rows
whose name is exactly (case-sensitively) one of the requested names. -/
def fetchTags (db : DB) (tags : List Str) : List TagRow :=
  db.tags.filter (fun t => decide (t.name ∈ tags))

/-- The rows bulk-inserted by the reconciliation block: one row per
requested name with no exact match among the fetched rows (the
`existingTagNames` set), in request order, keeping duplicates of the
request list. -/
def newTagRows (db : DB) (tags : List Str) : List TagRow :=
  ((tags.filter
      (fun name => decide (name ∉ (fetchTags db tags).map TagRow.name))).enum).map
    (fun p => ⟨db.nextTagId + p.1, p.2⟩)

/-- Embeds the tag-reconciliation block shared by the edge function and
the three save handlers: fetch the existing rows matching the requested
names, insert the unmatched names as new rows, and append one
article-tag association per fetched-or-inserted row. -/
def reconcileTags (db : DB) (articleId : Nat) (tags : List Str) : DB :=
  let existingTags := fetchTags db tags
  let insertedTags := newTagRows db tags
  let allTags := existingTags ++ insertedTags
  { db with
    tags := db.tags ++ insertedTags,
    nextTagId := db.nextTagId + insertedTags.length,
    article_tags := db.article_tags ++ allTags.map (fun t => (articleId, t.id)) }

/-- Embeds `filename?.replace(/\.(md|markdown)$/, "")`. -/
def stripMdExt (f : Str) : Str :=
  if (str ".md").isSuffixOf f then f.take (f.length - 3)
  else if (str ".markdown").isSuffixOf f then f.take (f.length - 9)
  else f

/-- Embeds the happy path of the `Deno.serve` handler of
`process-markdown/index.ts`: validate the body, parse the frontmatter,
derive the article fields with their `||` fallbacks, insert the article
row with status `draft` and null `html_content`, then run tag
reconciliation when the tag list is non-empty.  `now` stands for
`new Date().toISOString()`. -/
def processMarkdown (markdown : Str) (filename : Option Str) (now : Str)
    (db : DB) : Except Str DB :=
  if markdown = [] then .error (str "Markdown content is required")
  else
    let pm := parseFrontmatter markdown
    let fmTitle := (pm.frontmatter.map Frontmatter.title).getD []
    let fmExcerpt := (pm.frontmatter.map Frontmatter.excerpt).getD []
    let fmCategory := (pm.frontmatter.map Frontmatter.category).getD []
    let fmDate := (pm.frontmatter.map Frontmatter.date).getD []
    let title := jsOr fmTitle
      (jsOr ((filename.map stripMdExt).getD []) (str "Untitled Article"))
    let excerpt := jsOr fmExcerpt (str "No excerpt provided")
    let category := jsOr fmCategory (str "Uncategorized")
    let date := jsOr fmDate now
    let tags := (pm.frontmatter.map Frontmatter.tags).getD []
    let row : ArticleRow :=
      ⟨db.nextArticleId, title, generateSlug title, excerpt, category,
        estimateReadTime pm.content, .draft, pm.content, none, date⟩
    let db1 : DB :=
      { db with articles := db.articles ++ [row],
                nextArticleId := db.nextArticleId + 1 }
    .ok (if tags = [] then db1 else reconcileTags db1 row.id tags)

/-- Embeds `from("article_tags").delete().eq("article_id", id)`. -/
def deleteArticleTags (db : DB) (articleId : Nat) : DB :=
  { db with article_tags := db.article_tags.filter (fun p => decide (p.1 ≠ articleId)) }

/-- Embeds `from("articles").upsert(row)`: replace the row with the same
id, or append when none exists. -/
def upsertArticle (db : DB) (row : ArticleRow) : DB :=
  if db.articles.any (fun a => a.id = row.id) then
    { db with articles := db.articles.map (fun a => if a.id = row.id then row else a) }
  else { db with articles := db.articles ++ [row] }

/-- The association rows of one article. -/
def assocFor (db : DB) (articleId : Nat) : List (Nat × Nat) :=
  db.article_tags.filter (fun p => decide (p.1 = articleId))

/-- Embeds `Editor.handleSave` of `src/pages/Editor.tsx` after its
guard: upsert the article with the regenerated frontmatter prepended to
the markdown content, delete every association row of the article
unconditionally, then re-insert via tag reconciliation when the tag
list is non-empty. -/
def editorHandleSave (db : DB) (article : ArticleRow) (articleTags : List Str)
    (status : ArticleStatus) (now : Str) : DB :=
  let full := generateFrontmatter article.title article.excerpt article.category
      article.date articleTags now ++ article.markdown_content
  let db1 := upsertArticle db
    { article with markdown_content := full, status := status }
  let db2 := deleteArticleTags db1 article.id
  if articleTags = [] then db2 else reconcileTags db2 article.id articleTags

/-- Embeds `SettingsModal.handleSave` of
`src/components/editor/ToolbarSection.tsx`: upsert the article
unchanged, delete every association row unconditionally, then
reconcile when the tag list is non-empty. -/
def settingsModalHandleSave (db : DB) (article : ArticleRow)
    (tags : List Str) : DB :=
  let db1 := upsertArticle db article
  let db2 := deleteArticleTags db1 article.id
  if tags = [] then db2 else reconcileTags db2 article.id tags

/-- Embeds `ArticleManager.replaceArticle` of
`src/pages/ArticleManager.tsx` after the uploaded file has been parsed:
update the article row, and only when the parsed tag list is non-empty,
delete the prior associations and reconcile the new ones — the whole
tag step, including the delete, sits inside `if (tags.length > 0)`. -/
def managerReplaceArticle (db : DB) (articleId : Nat)
    (title excerpt category markdownContent date : Str)
    (tags : List Str) : DB :=
  let db1 : DB :=
    { db with articles := db.articles.map (fun a =>
        if a.id = articleId then
          { a with title := title, excerpt := excerpt, category := category,
                   markdown_content := markdownContent, date := date }
        else a) }
  if tags = [] then db1
  else reconcileTags (deleteArticleTags db1 articleId) articleId tags

/-! ### Line classification

The regex splits a document at the first line of the form `---`
followed only by whitespace.  A frontmatter line is well formed for the
split exactly when it is nonempty, does not start with whitespace (so
the greedy opening `\s*\n` stops before it), contains no newline, and
is not such a `---` line. -/

/-- A line consisting of `---` followed only by whitespace: the shape
the closing-delimiter pattern `\n---\s*\n` accepts. -/
def isDashWs (l : Str) : Bool :=
  decide (l.take 3 = ['-', '-', '-']) && (l.drop 3).all jsWhitespace

/-- A frontmatter line that the regex keeps inside the first capture
group: nonempty, not starting with whitespace, newline-free, and not a
closing delimiter. -/
def GoodLine (l : Str) : Prop :=
  l ≠ [] ∧ jsWhitespace (l.headD 'a') = false ∧ '\n' ∉ l ∧ isDashWs l = false

instance (l : Str) : Decidable (GoodLine l) := by
  unfold GoodLine
  infer_instance

/-- The keys the field loop recognizes. -/
def recognizedKeys : List Str :=
  [str "title", str "excerpt", str "category", str "date", str "tags"]

/-- The characters a slug can contain: hyphen, lower-case letter,
digit. -/
def slugOutChar (x : Char) : Prop :=
  x = '-' ∨ (97 ≤ x.toNat ∧ x.toNat ≤ 122) ∨ (48 ≤ x.toNat ∧ x.toNat ≤ 57)

/-- Removes leading and trailing hyphens. -/
def trimHyphens (l : Str) : Str :=
  ((l.dropWhile (fun c => c = '-')).reverse.dropWhile (fun c => c = '-')).reverse

/-- Modelled from the spec (section 4.2), for comparison with the
source's `generateSlug`: lower-case, remove every character outside
`[a-z0-9\s-]`, collapse whitespace runs to single hyphens, collapse
hyphen runs, then trim leading and trailing hyphens. -/
def slugSpec (title : Str) : Str :=
  trimHyphens (collapseRuns (fun c => c = '-') '-'
    (collapseRuns jsWhitespace '-' ((title.map lowerAscii).filter slugKeep)))

/-- A 400-token body: four hundred copies of a one-letter word,
separated by single spaces. -/
def fourHundredWords : Str := joinSep ' ' (List.replicate 400 ['w'])

/-- The end-to-end input document of the spec's ingestion scenario. -/
def c1Input : Str :=
  str "---\ntitle: \"T\"\nexcerpt: \"E\"\ncategory: \"C\"\ndate: \"2024-01-01\"\ntags: [\"x\",\"y\"]\n---\n\nBody text here."

/-- A store that already holds a tag named `a` (with id 7). -/
def c2Db : DB :=
  { articles := [], tags := [⟨7, str "a"⟩], article_tags := [],
    nextArticleId := 0, nextTagId := 8 }

/-- A document with a stray opening delimiter but no complete leading
frontmatter block: the closing `---` line is never followed by a
newline. -/
def c3Doc : Str :=
  str "---\ntitle: \"T\"\nstray --- in body\n--- no closing newline"

/-- A store holding one article (id 9) with one tag association. -/
def c8Db : DB :=
  { articles := [⟨9, str "t", str "t", str "e", str "c", str "r", .draft,
      str "m", none, str "d"⟩],
    tags := [⟨7, str "old"⟩], article_tags := [(9, 7)],
    nextArticleId := 10, nextTagId := 8 }

/-! ### Whitespace, trim, split and join lemmas -/

lemma dropWhile_ws_append (w t : Str) (hw : ∀ x ∈ w, jsWhitespace x = true) :
    (w ++ t).dropWhile jsWhitespace = t.dropWhile jsWhitespace := by
  induction w with
  | nil => rfl
  | cons c w ih =>
    have hc := hw c (by simp)
    simp only [List.cons_append, List.dropWhile_cons, hc, if_true]
    exact ih (fun x hx => hw x (by simp [hx]))

lemma jsTrim_ws_append (w t : Str) (hw : ∀ x ∈ w, jsWhitespace x = true) :
    jsTrim (w ++ t) = jsTrim t := by
  simp only [jsTrim, dropWhile_ws_append w t hw]

lemma jsTrim_wrap (a b : Char) (m : Str) (ha : jsWhitespace a = false)
    (hb : jsWhitespace b = false) :
    jsTrim (a :: (m ++ [b])) = a :: (m ++ [b]) := by
  simp only [jsTrim, List.dropWhile_cons, ha, Bool.false_eq_true, if_false,
    List.reverse_cons, List.reverse_append, List.reverse_cons, List.reverse_nil,
    List.nil_append, List.singleton_append, List.dropWhile_cons, hb]
  simp [hb]

lemma splitOn_ne_nil (sep : Char) (s : Str) : splitOn sep s ≠ [] := by
  induction s with
  | nil => simp [splitOn]
  | cons c t ih =>
    simp only [splitOn]
    by_cases hc : c = sep
    · simp [hc]
    · simp only [hc, if_false]
      cases h : splitOn sep t with
      | nil => simp
      | cons a r => simp

lemma splitOn_no_sep (sep : Char) (l : Str) (h : sep ∉ l) :
    splitOn sep l = [l] := by
  induction l with
  | nil => rfl
  | cons c t ih =>
    have hc : c ≠ sep := by rintro rfl; exact h (by simp)
    have ht : sep ∉ t := fun hm => h (by simp [hm])
    simp only [splitOn, hc, if_false, ih ht]

lemma splitOn_append_sep (sep : Char) (a b : Str) (h : sep ∉ a) :
    splitOn sep (a ++ sep :: b) = a :: splitOn sep b := by
  induction a with
  | nil => simp [splitOn]
  | cons c t ih =>
    have hc : c ≠ sep := by rintro rfl; exact h (by simp)
    have ht : sep ∉ t := fun hm => h (by simp [hm])
    simp only [List.cons_append, splitOn, hc, if_false, List.append_eq, ih ht]

lemma joinSep_splitOn (sep : Char) (s : Str) :
    joinSep sep (splitOn sep s) = s := by
  induction s with
  | nil => rfl
  | cons c t ih =>
    simp only [splitOn]
    by_cases hc : c = sep
    · subst hc
      simp only [if_true]
      cases h : splitOn c t with
      | nil => exact absurd h (splitOn_ne_nil c t)
      | cons a r =>
        rw [h] at ih
        simp only [joinSep, List.nil_append]
        cases r with
        | nil => simp only [joinSep] at ih ⊢; rw [ih]
        | cons b r' => simp only [joinSep] at ih ⊢; rw [ih]
    · simp only [hc, if_false]
      cases h : splitOn sep t with
      | nil => exact absurd h (splitOn_ne_nil sep t)
      | cons a r =>
        rw [h] at ih
        cases r with
        | nil => simp only [joinSep] at ih ⊢; rw [ih]
        | cons b r' =>
          simp only [joinSep, List.cons_append] at ih ⊢
          rw [← ih]

lemma splitOn_joinSep (sep : Char) (ls : List Str) (h1 : ls ≠ [])
    (h2 : ∀ l ∈ ls, sep ∉ l) : splitOn sep (joinSep sep ls) = ls := by
  induction ls with
  | nil => exact absurd rfl h1
  | cons l ls ih =>
    cases ls with
    | nil => simpa [joinSep] using splitOn_no_sep sep l (h2 l (by simp))
    | cons l2 ls' =>
      have hl : sep ∉ l := h2 l (by simp)
      simp only [joinSep, splitOn_append_sep sep l _ hl]
      rw [ih (by simp) (fun x hx => h2 x (by simp [hx]))]

lemma joinSep_head_decomp (ls : List Str) (h : ls ≠ []) (k : Str) :
    ∃ s, joinSep '\n' ls ++ '\n' :: k = ls.headD [] ++ '\n' :: s := by
  cases ls with
  | nil => exact absurd rfl h
  | cons l ls' =>
    cases ls' with
    | nil => exact ⟨k, by simp [joinSep]⟩
    | cons l2 ls'' =>
      exact ⟨joinSep '\n' (l2 :: ls'') ++ '\n' :: k, by simp [joinSep]⟩

/-! ### Regex-match lemmas

These characterize where `regexMatch` splits a document of the shape
`mkDoc ls body` when every line of `ls` is a `GoodLine`. -/

lemma matchWsNl_shape (t : Str) :
    ∀ r, matchWsNl t = some r →
      ∃ w, t = w ++ '\n' :: r ∧ ∀ x ∈ w, jsWhitespace x = true := by
  induction t with
  | nil => intro r h; simp [matchWsNl] at h
  | cons c t ih =>
    intro r h
    simp only [matchWsNl] at h
    by_cases hc : jsWhitespace c = true
    · simp only [hc, if_true] at h
      cases hm : matchWsNl t with
      | some r' =>
        rw [hm] at h
        obtain ⟨w, hw1, hw2⟩ := ih r' hm
        cases h
        exact ⟨c :: w, by simp [hw1], by
          intro x hx
          rcases List.mem_cons.mp hx with rfl | hx
          · exact hc
          · exact hw2 x hx⟩
      | none =>
        rw [hm] at h
        by_cases hnl : c = '\n'
        · simp only [hnl, if_true] at h
          cases h
          exact ⟨[], by simp [hnl], by simp⟩
        · simp [hnl] at h
    · simp [hc] at h

lemma matchWsNl_nl_isSome (t : Str) : (matchWsNl ('\n' :: t)).isSome := by
  simp only [matchWsNl]
  have : jsWhitespace '\n' = true := by decide
  simp only [this, if_true]
  cases hm : matchWsNl t with
  | some r => simp
  | none => simp

lemma matchWsNl_nl_trim (t : Str) :
    ∃ r, matchWsNl ('\n' :: t) = some r ∧ jsTrim r = jsTrim t := by
  obtain ⟨r, hr⟩ := Option.isSome_iff_exists.mp (matchWsNl_nl_isSome t)
  refine ⟨r, hr, ?_⟩
  obtain ⟨w, hw1, hw2⟩ := matchWsNl_shape _ r hr
  cases w with
  | nil => simp at hw1; rw [hw1]
  | cons a w' =>
    simp only [List.cons_append, List.cons.injEq] at hw1
    obtain ⟨rfl, hw1⟩ := hw1
    rw [hw1]
    have : w' ++ '\n' :: r = (w' ++ ['\n']) ++ r := by simp
    rw [this, jsTrim_ws_append]
    intro x hx
    rcases List.mem_append.mp hx with hx | hx
    · exact hw2 x (by simp [hx])
    · simp at hx; subst hx; decide

lemma matchWsNl_blocked (w : Str) (c : Char) (u : Str)
    (hw : ∀ x ∈ w, jsWhitespace x = true ∧ x ≠ '\n')
    (hc : jsWhitespace c = false) : matchWsNl (w ++ c :: u) = none := by
  induction w with
  | nil => simp [matchWsNl, hc]
  | cons d w' ih =>
    obtain ⟨hd1, hd2⟩ := hw d (by simp)
    have hih := ih (fun x hx => hw x (by simp [hx]))
    simp only [List.cons_append, matchWsNl, hd1, if_true, List.append_eq,
      hih, hd2, if_false]

lemma dashClose_of_take (t : Str) (h : t.take 3 ≠ ['-', '-', '-']) :
    dashClose t = none := by
  match t with
  | [] => rfl
  | [a] => rfl
  | [a, b] => rfl
  | a :: b :: c :: r =>
    have : ¬(a = '-' ∧ b = '-' ∧ c = '-') := by
      intro ⟨h1, h2, h3⟩
      exact h (by simp [List.take, h1, h2, h3])
    simp [dashClose, this]

lemma dashClose_cons (r : Str) :
    dashClose ('-' :: '-' :: '-' :: r) = matchWsNl r := by
  simp [dashClose]

lemma mem_of_mem_takeWhile {p : Char → Bool} {x : Char} :
    ∀ {l : Str}, x ∈ l.takeWhile p → x ∈ l := by
  intro l
  induction l with
  | nil => intro h; simp at h
  | cons c t ih =>
    intro h
    rw [List.takeWhile_cons] at h
    by_cases hc : p c = true
    · rw [if_pos hc] at h
      rcases List.mem_cons.mp h with rfl | h
      · simp
      · exact List.mem_cons.mpr (Or.inr (ih h))
    · rw [if_neg hc] at h
      exact absurd h (List.not_mem_nil x)

lemma dropWhile_head_false {p : Char → Bool} :
    ∀ (l : Str) c t, l.dropWhile p = c :: t → p c = false := by
  intro l
  induction l with
  | nil => intro c t h; simp at h
  | cons d l' ih =>
    intro c t h
    rw [List.dropWhile_cons] at h
    by_cases hd : p d = true
    · rw [if_pos hd] at h
      exact ih c t h
    · rw [if_neg hd] at h
      cases h
      simpa using hd

lemma dashClose_boundary (l : Str) (rest : Str) (hnl : '\n' ∉ l)
    (hd : isDashWs l = false) : dashClose (l ++ '\n' :: rest) = none := by
  by_cases h3 : l.take 3 = ['-', '-', '-']
  · -- the line starts with `---` but its tail is not all whitespace
    have hdrop : ((l.drop 3).all jsWhitespace) = false := by
      simp only [isDashWs, h3] at hd
      simpa using hd
    obtain ⟨w, rfl⟩ : ∃ w, l = '-' :: '-' :: '-' :: w := by
      refine ⟨l.drop 3, ?_⟩
      conv_lhs => rw [← List.take_append_drop 3 l, h3]
      rfl
    have hwdrop : (('-' : Char) :: '-' :: '-' :: w).drop 3 = w := rfl
    rw [hwdrop] at hdrop
    -- decompose w at its first non-whitespace character
    have hex : ∃ x ∈ w, jsWhitespace x = false := by
      by_contra hall
      push_neg at hall
      have hall' : w.all jsWhitespace = true := by
        rw [List.all_eq_true]
        intro x hx
        cases h : jsWhitespace x with
        | false => exact absurd h (hall x hx)
        | true => rfl
      rw [hall'] at hdrop
      exact absurd hdrop (by simp)
    have hne : w.dropWhile jsWhitespace ≠ [] := by
      intro hnil
      obtain ⟨x, hx, hxf⟩ := hex
      have := List.dropWhile_eq_nil_iff.mp hnil x hx
      rw [this] at hxf; exact absurd hxf (by simp)
    obtain ⟨c, w2, hcw⟩ := List.exists_cons_of_ne_nil hne
    have hsplit : w = w.takeWhile jsWhitespace ++ c :: w2 := by
      conv_lhs => rw [← List.takeWhile_append_dropWhile (p := jsWhitespace) (l := w)]
      rw [hcw]
    have hc : jsWhitespace c = false := dropWhile_head_false w c w2 hcw
    rw [List.cons_append, List.cons_append, List.cons_append, dashClose_cons]
    conv_lhs => rw [hsplit]
    have hre : (w.takeWhile jsWhitespace ++ c :: w2) ++ '\n' :: rest
        = w.takeWhile jsWhitespace ++ c :: (w2 ++ '\n' :: rest) := by simp
    rw [hre]
    apply matchWsNl_blocked
    · intro x hx
      refine ⟨List.mem_takeWhile_imp hx, ?_⟩
      intro hxnl
      subst hxnl
      exact hnl (by
        have hxw : '\n' ∈ w := mem_of_mem_takeWhile hx
        simp [hxw])
    · exact hc
  · -- the line does not start with `---`
    apply dashClose_of_take
    match l with
    | [] =>
      simp only [List.nil_append, List.take_succ_cons]
      intro heq
      simp only [List.cons.injEq] at heq
      exact absurd heq.1 (by decide)
    | [a] =>
      simp only [List.cons_append, List.nil_append, List.take_succ_cons]
      intro heq
      simp only [List.cons.injEq] at heq
      exact absurd heq.2.1 (by decide)
    | [a, b] =>
      simp only [List.cons_append, List.nil_append, List.take_succ_cons]
      intro heq
      simp only [List.cons.injEq] at heq
      exact absurd heq.2.2.1 (by decide)
    | a :: b :: c :: t =>
      simpa using h3

lemma searchClose_found (t : Str) (r : Str) (h : dashClose t = some r) :
    searchClose ('\n' :: t) = some ([], r) := by
  simp [searchClose, h]

lemma searchClose_nl_skip (t : Str) (h : dashClose t = none) :
    searchClose ('\n' :: t) = (searchClose t).map (fun p => ('\n' :: p.1, p.2)) := by
  simp [searchClose, h]

lemma searchClose_append (l t : Str) (hnl : '\n' ∉ l) :
    searchClose (l ++ t) = (searchClose t).map (fun p => (l ++ p.1, p.2)) := by
  induction l with
  | nil =>
    simp only [List.nil_append]
    cases h : searchClose t with
    | none => simp
    | some p => simp
  | cons c l' ih =>
    have hc : c ≠ '\n' := by rintro rfl; exact hnl (by simp)
    have hnl' : '\n' ∉ l' := fun hm => hnl (by simp [hm])
    simp only [List.cons_append, searchClose, hc, if_false, List.append_eq,
      ih hnl']
    cases h : searchClose t with
    | none => simp
    | some p => simp

lemma searchClose_lines (ls : List Str) (h1 : ls ≠ [])
    (h2 : ∀ l ∈ ls, GoodLine l) (rest r : Str) (hr : matchWsNl rest = some r) :
    searchClose (joinSep '\n' ls ++ '\n' :: '-' :: '-' :: '-' :: rest)
      = some (joinSep '\n' ls, r) := by
  induction ls with
  | nil => exact absurd rfl h1
  | cons l ls' ih =>
    obtain ⟨hl0, hl1, hl2, hl3⟩ := h2 l (by simp)
    cases ls' with
    | nil =>
      simp only [joinSep]
      rw [searchClose_append l _ hl2, searchClose_found _ r (by simp [dashClose, hr])]
      simp
    | cons l2 ls'' =>
      simp only [joinSep]
      have hassoc : (l ++ '\n' :: joinSep '\n' (l2 :: ls''))
            ++ '\n' :: '-' :: '-' :: '-' :: rest
          = l ++ '\n' :: (joinSep '\n' (l2 :: ls'')
            ++ '\n' :: '-' :: '-' :: '-' :: rest) := by simp
      rw [hassoc, searchClose_append l _ hl2]
      obtain ⟨s, hs⟩ := joinSep_head_decomp (l2 :: ls'') (by simp)
        ('-' :: '-' :: '-' :: rest)
      have hdc : dashClose (joinSep '\n' (l2 :: ls'')
          ++ '\n' :: '-' :: '-' :: '-' :: rest) = none := by
        rw [hs]
        obtain ⟨hg0, hg1, hg2, hg3⟩ := h2 l2 (by simp)
        have : (l2 :: ls'').headD [] = l2 := rfl
        rw [this]
        exact dashClose_boundary l2 s hg2 hg3
      rw [searchClose_nl_skip _ hdc,
        ih (by simp) (fun x hx => h2 x (by simp [hx]))]
      simp

lemma openWsNl_notWs (c : Char) (t : Str) (h : jsWhitespace c = false) :
    openWsNl (c :: t) = none := by
  simp [openWsNl, h]

lemma regexMatch_open (x : Str) :
    regexMatch (str "---\n" ++ x) = openWsNl ('\n' :: x) := rfl

lemma regexMatch_mkDoc (ls : List Str) (body : Str) (h1 : ls ≠ [])
    (h2 : ∀ l ∈ ls, GoodLine l) :
    ∃ r, regexMatch (mkDoc ls body) = some (joinSep '\n' ls, r)
      ∧ jsTrim r = jsTrim body := by
  obtain ⟨r, hr, htrim⟩ := matchWsNl_nl_trim body
  refine ⟨r, ?_, htrim⟩
  have hdoc : mkDoc ls body
      = str "---\n" ++ (joinSep '\n' ls ++ '\n' :: '-' :: '-' :: '-' :: '\n' :: body) := by
    simp only [mkDoc, List.append_assoc]
    rfl
  rw [hdoc, regexMatch_open]
  -- the opening `\s*\n` consumes exactly the first newline: the first
  -- line starts with a non-whitespace character
  obtain ⟨l, ls', rfl⟩ : ∃ l ls', ls = l :: ls' := by
    cases ls with
    | nil => exact absurd rfl h1
    | cons l ls' => exact ⟨l, ls', rfl⟩
  obtain ⟨hl0, hl1, hl2, hl3⟩ := h2 l (by simp)
  obtain ⟨c, l', rfl⟩ := List.exists_cons_of_ne_nil hl0
  have hchead : jsWhitespace c = false := by simpa using hl1
  obtain ⟨s, hs⟩ := joinSep_head_decomp ((c :: l') :: ls') (by simp)
    ('-' :: '-' :: '-' :: '\n' :: body)
  simp only [List.headD_cons] at hs
  have hnone : openWsNl (joinSep '\n' ((c :: l') :: ls')
      ++ '\n' :: '-' :: '-' :: '-' :: '\n' :: body) = none := by
    rw [hs]
    exact openWsNl_notWs c _ hchead
  simp only [openWsNl]
  have hwnl : jsWhitespace '\n' = true := by decide
  simp only [hwnl, if_true, hnone, if_pos rfl]
  exact searchClose_lines _ h1 h2 ('\n' :: body) r hr

/-- The split of a well-formed document: the regex does match, the
first capture is exactly the joined lines, and the content is the
trimmed body. -/
theorem parseFrontmatter_mkDoc (ls : List Str) (body : Str) (h1 : ls ≠ [])
    (h2 : ∀ l ∈ ls, GoodLine l) :
    parseFrontmatter (mkDoc ls body) = ⟨jsTrim body, some (fmFold ls)⟩ := by
  obtain ⟨r, hr, htrim⟩ := regexMatch_mkDoc ls body h1 h2
  simp only [parseFrontmatter, hr, htrim]
  rw [splitOn_joinSep '\n' ls h1 (fun l hl => (h2 l hl).2.2.1)]

/-- The split of a well-formed document, runtime view. -/
theorem parseFrontmatterDyn_mkDoc (ls : List Str) (body : Str) (h1 : ls ≠ [])
    (h2 : ∀ l ∈ ls, GoodLine l) :
    parseFrontmatterDyn (mkDoc ls body) = ⟨jsTrim body, some (fmFoldDyn ls)⟩ := by
  obtain ⟨r, hr, htrim⟩ := regexMatch_mkDoc ls body h1 h2
  simp only [parseFrontmatterDyn, hr, htrim]
  rw [splitOn_joinSep '\n' ls h1 (fun l hl => (h2 l hl).2.2.1)]

/-! ### Field-loop lemmas -/

lemma parseLine_split (fm : Frontmatter) (k v : Str) (hk : ':' ∉ k) :
    parseLine fm (k ++ ':' :: v) =
      (if k = str "title" then { fm with title := stripQuotes (jsTrim v) }
       else if k = str "excerpt" then { fm with excerpt := stripQuotes (jsTrim v) }
       else if k = str "category" then { fm with category := stripQuotes (jsTrim v) }
       else if k = str "date" then { fm with date := stripQuotes (jsTrim v) }
       else if k = str "tags" then
         { fm with tags := (parseJsonStringList (jsTrim v)).getD [] }
       else fm) := by
  unfold parseLine
  rw [splitOn_append_sep ':' k v hk]
  simp only [List.headD_cons, List.tail_cons]
  rw [joinSep_splitOn]

lemma parseLine_title (fm : Frontmatter) (t : Str) :
    parseLine fm (str "title: " ++ t) = { fm with title := stripQuotes (jsTrim t) } := by
  have h : str "title: " ++ t = str "title" ++ ':' :: (' ' :: t) := rfl
  have h2 : jsTrim (' ' :: t) = jsTrim t := jsTrim_ws_append [' '] t (by decide)
  rw [h, parseLine_split fm _ _ (by decide), if_pos rfl, h2]

lemma parseLine_excerpt (fm : Frontmatter) (t : Str) :
    parseLine fm (str "excerpt: " ++ t) = { fm with excerpt := stripQuotes (jsTrim t) } := by
  have h : str "excerpt: " ++ t = str "excerpt" ++ ':' :: (' ' :: t) := rfl
  have h2 : jsTrim (' ' :: t) = jsTrim t := jsTrim_ws_append [' '] t (by decide)
  rw [h, parseLine_split fm _ _ (by decide), if_neg (by decide), if_pos rfl, h2]

lemma parseLine_category (fm : Frontmatter) (t : Str) :
    parseLine fm (str "category: " ++ t)
      = { fm with category := stripQuotes (jsTrim t) } := by
  have h : str "category: " ++ t = str "category" ++ ':' :: (' ' :: t) := rfl
  have h2 : jsTrim (' ' :: t) = jsTrim t := jsTrim_ws_append [' '] t (by decide)
  rw [h, parseLine_split fm _ _ (by decide), if_neg (by decide), if_neg (by decide),
    if_pos rfl, h2]

lemma parseLine_date (fm : Frontmatter) (t : Str) :
    parseLine fm (str "date: " ++ t) = { fm with date := stripQuotes (jsTrim t) } := by
  have h : str "date: " ++ t = str "date" ++ ':' :: (' ' :: t) := rfl
  have h2 : jsTrim (' ' :: t) = jsTrim t := jsTrim_ws_append [' '] t (by decide)
  rw [h, parseLine_split fm _ _ (by decide), if_neg (by decide), if_neg (by decide),
    if_neg (by decide), if_pos rfl, h2]

lemma parseLine_tags (fm : Frontmatter) (t : Str) :
    parseLine fm (str "tags: " ++ t)
      = { fm with tags := (parseJsonStringList (jsTrim t)).getD [] } := by
  have h : str "tags: " ++ t = str "tags" ++ ':' :: (' ' :: t) := rfl
  have h2 : jsTrim (' ' :: t) = jsTrim t := jsTrim_ws_append [' '] t (by decide)
  rw [h, parseLine_split fm _ _ (by decide), if_neg (by decide), if_neg (by decide),
    if_neg (by decide), if_neg (by decide), if_pos rfl, h2]

lemma parseLine_unrecognized (fm : Frontmatter) (l : Str)
    (h : (splitOn ':' l).headD [] ∉ recognizedKeys) : parseLine fm l = fm := by
  unfold parseLine
  simp only [recognizedKeys, List.mem_cons, List.not_mem_nil, or_false, not_or] at h
  obtain ⟨h1, h2, h3, h4, h5⟩ := h
  simp only [List.headD_eq_head?_getD] at h1 h2 h3 h4 h5
  simp [h1, h2, h3, h4, h5]

lemma foldl_parseLine_extras (fm : Frontmatter) (extras : List Str)
    (h : ∀ l ∈ extras, (splitOn ':' l).headD [] ∉ recognizedKeys) :
    extras.foldl parseLine fm = fm := by
  induction extras generalizing fm with
  | nil => rfl
  | cons l extras ih =>
    rw [List.foldl_cons, parseLine_unrecognized fm l (h l (by simp))]
    exact ih fm (fun x hx => h x (by simp [hx]))

/-- The field loop on a canonical five-line block followed by
unrecognized extra lines. -/
lemma fmFold_canonical (t e c d tg : Str) (extras : List Str)
    (hex : ∀ l ∈ extras, (splitOn ':' l).headD [] ∉ recognizedKeys) :
    fmFold ([str "title: " ++ t, str "excerpt: " ++ e, str "category: " ++ c,
             str "date: " ++ d, str "tags: " ++ tg] ++ extras)
      = ⟨stripQuotes (jsTrim t), stripQuotes (jsTrim e), stripQuotes (jsTrim c),
         stripQuotes (jsTrim d), (parseJsonStringList (jsTrim tg)).getD []⟩ := by
  unfold fmFold
  rw [List.foldl_append]
  simp only [List.foldl_cons, List.foldl_nil]
  rw [parseLine_title, parseLine_excerpt, parseLine_category, parseLine_date,
    parseLine_tags]
  exact foldl_parseLine_extras _ extras hex

/-! ### Field-loop lemmas, runtime view -/

lemma parseLineDyn_split (fm : FrontmatterDyn) (k v : Str) (hk : ':' ∉ k) :
    parseLineDyn fm (k ++ ':' :: v) =
      (if k = str "title" then { fm with title := stripQuotes (jsTrim v) }
       else if k = str "excerpt" then { fm with excerpt := stripQuotes (jsTrim v) }
       else if k = str "category" then { fm with category := stripQuotes (jsTrim v) }
       else if k = str "date" then { fm with date := stripQuotes (jsTrim v) }
       else if k = str "tags" then
         { fm with tags := (jsonParse (jsTrim v)).getD (JsonVal.arr []) }
       else fm) := by
  unfold parseLineDyn
  rw [splitOn_append_sep ':' k v hk]
  simp only [List.headD_cons, List.tail_cons]
  rw [joinSep_splitOn]

lemma parseLineDyn_title (fm : FrontmatterDyn) (t : Str) :
    parseLineDyn fm (str "title: " ++ t)
      = { fm with title := stripQuotes (jsTrim t) } := by
  have h : str "title: " ++ t = str "title" ++ ':' :: (' ' :: t) := rfl
  have h2 : jsTrim (' ' :: t) = jsTrim t := jsTrim_ws_append [' '] t (by decide)
  rw [h, parseLineDyn_split fm _ _ (by decide), if_pos rfl, h2]

lemma parseLineDyn_excerpt (fm : FrontmatterDyn) (t : Str) :
    parseLineDyn fm (str "excerpt: " ++ t)
      = { fm with excerpt := stripQuotes (jsTrim t) } := by
  have h : str "excerpt: " ++ t = str "excerpt" ++ ':' :: (' ' :: t) := rfl
  have h2 : jsTrim (' ' :: t) = jsTrim t := jsTrim_ws_append [' '] t (by decide)
  rw [h, parseLineDyn_split fm _ _ (by decide), if_neg (by decide), if_pos rfl, h2]

lemma parseLineDyn_category (fm : FrontmatterDyn) (t : Str) :
    parseLineDyn fm (str "category: " ++ t)
      = { fm with category := stripQuotes (jsTrim t) } := by
  have h : str "category: " ++ t = str "category" ++ ':' :: (' ' :: t) := rfl
  have h2 : jsTrim (' ' :: t) = jsTrim t := jsTrim_ws_append [' '] t (by decide)
  rw [h, parseLineDyn_split fm _ _ (by decide), if_neg (by decide),
    if_neg (by decide), if_pos rfl, h2]

lemma parseLineDyn_date (fm : FrontmatterDyn) (t : Str) :
    parseLineDyn fm (str "date: " ++ t)
      = { fm with date := stripQuotes (jsTrim t) } := by
  have h : str "date: " ++ t = str "date" ++ ':' :: (' ' :: t) := rfl
  have h2 : jsTrim (' ' :: t) = jsTrim t := jsTrim_ws_append [' '] t (by decide)
  rw [h, parseLineDyn_split fm _ _ (by decide), if_neg (by decide),
    if_neg (by decide), if_neg (by decide), if_pos rfl, h2]

lemma parseLineDyn_tags (fm : FrontmatterDyn) (t : Str) :
    parseLineDyn fm (str "tags: " ++ t)
      = { fm with tags := (jsonParse (jsTrim t)).getD (JsonVal.arr []) } := by
  have h : str "tags: " ++ t = str "tags" ++ ':' :: (' ' :: t) := rfl
  have h2 : jsTrim (' ' :: t) = jsTrim t := jsTrim_ws_append [' '] t (by decide)
  rw [h, parseLineDyn_split fm _ _ (by decide), if_neg (by decide),
    if_neg (by decide), if_neg (by decide), if_neg (by decide), if_pos rfl, h2]

lemma parseLineDyn_unrecognized (fm : FrontmatterDyn) (l : Str)
    (h : (splitOn ':' l).headD [] ∉ recognizedKeys) : parseLineDyn fm l = fm := by
  unfold parseLineDyn
  simp only [recognizedKeys, List.mem_cons, List.not_mem_nil, or_false, not_or] at h
  obtain ⟨h1, h2, h3, h4, h5⟩ := h
  simp only [List.headD_eq_head?_getD] at h1 h2 h3 h4 h5
  simp [h1, h2, h3, h4, h5]

lemma foldl_parseLineDyn_extras (fm : FrontmatterDyn) (extras : List Str)
    (h : ∀ l ∈ extras, (splitOn ':' l).headD [] ∉ recognizedKeys) :
    extras.foldl parseLineDyn fm = fm := by
  induction extras generalizing fm with
  | nil => rfl
  | cons l extras ih =>
    rw [List.foldl_cons, parseLineDyn_unrecognized fm l (h l (by simp))]
    exact ih fm (fun x hx => h x (by simp [hx]))

/-- The runtime field loop on a canonical five-line block followed by
unrecognized extra lines. -/
lemma fmFoldDyn_canonical (t e c d tg : Str) (extras : List Str)
    (hex : ∀ l ∈ extras, (splitOn ':' l).headD [] ∉ recognizedKeys) :
    fmFoldDyn ([str "title: " ++ t, str "excerpt: " ++ e, str "category: " ++ c,
             str "date: " ++ d, str "tags: " ++ tg] ++ extras)
      = ⟨stripQuotes (jsTrim t), stripQuotes (jsTrim e), stripQuotes (jsTrim c),
         stripQuotes (jsTrim d), (jsonParse (jsTrim tg)).getD (JsonVal.arr [])⟩ := by
  unfold fmFoldDyn
  rw [List.foldl_append]
  simp only [List.foldl_cons, List.foldl_nil]
  rw [parseLineDyn_title, parseLineDyn_excerpt, parseLineDyn_category,
    parseLineDyn_date, parseLineDyn_tags]
  exact foldl_parseLineDyn_extras _ extras hex

/-! ### JSON round-trip lemmas -/

lemma charOfNat_toNat_small : ∀ n, n < 128 → (Char.ofNat n).toNat = n := by decide

lemma hexRoundtrip : ∀ q, q < 16 → hexDigitVal (hexDigitChar q) = some q := by decide

lemma parseStrBody_escape (s rest : Str) :
    parseStrBody ((s.map escapeChar).flatten ++ '"' :: rest) = some (s, rest) := by
  induction s with
  | nil =>
    rw [show ((([] : Str).map escapeChar).flatten ++ '"' :: rest) = '"' :: rest by simp]
    rw [parseStrBody.eq_def]
    simp
  | cons c s ih =>
    simp only [List.map_cons, List.flatten_cons, List.append_assoc]
    by_cases h1 : c = '"'
    · subst h1
      rw [show escapeChar '"' = ['\\', '"'] from rfl]
      simp only [List.cons_append, List.nil_append]
      rw [parseStrBody.eq_def]
      simp [unescape, ih]
    · by_cases h2 : c = '\\'
      · subst h2
        rw [show escapeChar '\\' = ['\\', '\\'] from rfl]
        simp only [List.cons_append, List.nil_append]
        rw [parseStrBody.eq_def]
        simp [unescape, ih]
      · by_cases h3 : c = '\u0008'
        · subst h3
          rw [show escapeChar '\u0008' = ['\\', 'b'] from rfl]
          simp only [List.cons_append, List.nil_append]
          rw [parseStrBody.eq_def]
          simp [unescape, ih]
        · by_cases h4 : c = '\t'
          · subst h4
            rw [show escapeChar '\t' = ['\\', 't'] from rfl]
            simp only [List.cons_append, List.nil_append]
            rw [parseStrBody.eq_def]
            simp [unescape, ih]
          · by_cases h5 : c = '\n'
            · subst h5
              rw [show escapeChar '\n' = ['\\', 'n'] from rfl]
              simp only [List.cons_append, List.nil_append]
              rw [parseStrBody.eq_def]
              simp [unescape, ih]
            · by_cases h6 : c = '\u000c'
              · subst h6
                rw [show escapeChar '\u000c' = ['\\', 'f'] from rfl]
                simp only [List.cons_append, List.nil_append]
                rw [parseStrBody.eq_def]
                simp [unescape, ih]
              · by_cases h7 : c = '\r'
                · subst h7
                  rw [show escapeChar '\r' = ['\\', 'r'] from rfl]
                  simp only [List.cons_append, List.nil_append]
                  rw [parseStrBody.eq_def]
                  simp [unescape, ih]
                · by_cases h8 : c.toNat < 32
                  · -- the `\u00XX` escape
                    have hesc : escapeChar c
                        = ['\\', 'u', '0', '0', hexDigitChar (c.toNat / 16),
                           hexDigitChar (c.toNat % 16)] := by
                      simp [escapeChar, h1, h2, h3, h4, h5, h6, h7, h8]
                    rw [hesc]
                    simp only [List.cons_append, List.nil_append]
                    rw [parseStrBody.eq_def]
                    have hhi := hexRoundtrip (c.toNat / 16) (by omega)
                    have hlo := hexRoundtrip (c.toNat % 16) (by omega)
                    have h0 : hexDigitVal '0' = some 0 := by decide
                    simp [unescape, h0, hhi, hlo, ih]
                    rw [show 16 * (c.toNat / 16) + c.toNat % 16 = c.toNat by omega,
                      Char.ofNat_toNat]
                  · -- the raw character
                    have hesc : escapeChar c = [c] := by
                      simp [escapeChar, h1, h2, h3, h4, h5, h6, h7, h8]
                    rw [hesc]
                    simp only [List.cons_append, List.nil_append]
                    rw [parseStrBody.eq_def]
                    simp [h1, h2, h8, ih]

lemma parseJString_stringify (s rest : Str) :
    parseJString (stringifyString s ++ rest) = some (s, rest) := by
  simp only [stringifyString, List.cons_append, List.append_assoc,
    List.singleton_append, parseJString, if_pos rfl]
  exact parseStrBody_escape s rest

lemma stringifyString_length (s : Str) : 2 ≤ (stringifyString s).length := by
  simp [stringifyString]

lemma joinSepComma_length (L : List Str) (h : L ≠ []) :
    L.length ≤ (joinSep ',' (L.map stringifyString)).length := by
  induction L with
  | nil => exact absurd rfl h
  | cons s L ih =>
    cases L with
    | nil =>
      simp only [List.map_cons, List.map_nil, joinSep, List.length_cons,
        List.length_nil]
      have h2 := stringifyString_length s
      omega
    | cons s2 L' =>
      have h2 := stringifyString_length s
      have h3 := ih (by simp)
      simp only [List.map_cons, joinSep, List.length_append, List.length_cons] at h3 ⊢
      omega

lemma joinSepComma_head (s2 : Str) (L : List Str) (k : Str) :
    ∃ y, joinSep ',' ((s2 :: L).map stringifyString) ++ k
      = '"' :: y := by
  cases L with
  | nil => exact ⟨(s2.map escapeChar).flatten ++ ['"'] ++ k, by simp [joinSep, stringifyString]⟩
  | cons s3 L' =>
    exact ⟨((s2.map escapeChar).flatten ++ ['"'])
        ++ ',' :: joinSep ',' ((s3 :: L').map stringifyString) ++ k,
      by simp [joinSep, stringifyString]⟩

lemma parseElemsAux_succ (fuel : Nat) (t : Str) :
    parseElemsAux (fuel + 1) t
      = match parseJString t with
        | none => none
        | some (s, r) =>
          match r.dropWhile jsonWs with
          | [] => none
          | c :: r2 =>
            if c = ']' then some ([s], r2)
            else if c = ',' then
              match parseElemsAux fuel (r2.dropWhile jsonWs) with
              | some (l, r3) => some (s :: l, r3)
              | none => none
            else none := rfl

lemma parseElemsAux_stringify (l : List Str) (s : Str) :
    ∀ fuel rest, l.length ≤ fuel →
      parseElemsAux (fuel + 1)
          (joinSep ',' ((s :: l).map stringifyString) ++ ']' :: rest)
        = some (s :: l, rest) := by
  induction l generalizing s with
  | nil =>
    intro fuel rest _
    simp only [List.map_cons, List.map_nil, joinSep]
    rw [parseElemsAux_succ, parseJString_stringify s (']' :: rest)]
    have hdw : (']' :: rest).dropWhile jsonWs = ']' :: rest := by
      rw [List.dropWhile_cons, if_neg (by decide)]
    simp [hdw]
  | cons s2 l ih =>
    intro fuel rest hfuel
    obtain ⟨fuel, rfl⟩ : ∃ f, fuel = f + 1 := by
      cases fuel with
      | zero => simp at hfuel
      | succ f => exact ⟨f, rfl⟩
    have hjoin : joinSep ',' ((s :: s2 :: l).map stringifyString) ++ ']' :: rest
        = stringifyString s
          ++ ',' :: (joinSep ',' ((s2 :: l).map stringifyString) ++ ']' :: rest) := by
      simp [joinSep]
    rw [hjoin, parseElemsAux_succ, parseJString_stringify]
    have hdw : (',' :: (joinSep ',' ((s2 :: l).map stringifyString) ++ ']' :: rest)).dropWhile
        jsonWs = ',' :: (joinSep ',' ((s2 :: l).map stringifyString) ++ ']' :: rest) := by
      rw [List.dropWhile_cons, if_neg (by decide)]
    obtain ⟨y, hy⟩ := joinSepComma_head s2 l (']' :: rest)
    have hdw2 : (joinSep ',' ((s2 :: l).map stringifyString) ++ ']' :: rest).dropWhile
        jsonWs = joinSep ',' ((s2 :: l).map stringifyString) ++ ']' :: rest := by
      rw [hy, List.dropWhile_cons, if_neg (by decide)]
    have hih := ih s2 fuel rest (by simpa using hfuel)
    simp only [List.map_cons] at hdw hdw2 hih
    simp [hdw, hdw2, hih]

/-- `JSON.parse` inverts `JSON.stringify` on every string array. -/
theorem parseJson_stringify (l : List Str) :
    parseJsonStringList (stringifyStringList l) = some l := by
  cases l with
  | nil => rfl
  | cons s l' =>
    obtain ⟨y, hy⟩ := joinSepComma_head s l' [']']
    have hy' : joinSep ',' ((s :: l').map stringifyString) ++ [']'] = '"' :: y := hy
    have hRlen : (joinSep ',' ((s :: l').map stringifyString) ++ [']']).length
        = y.length + 1 := by rw [hy']; simp
    have hlen : l'.length ≤ y.length + 1 := by
      have h1 := joinSepComma_length (s :: l') (by simp)
      have h2 := hRlen
      simp only [List.length_append, List.length_cons, List.length_nil] at h2
      simp only [List.length_cons] at h1
      omega
    have hmain := parseElemsAux_stringify l' s (y.length + 1) [] hlen
    have harg : joinSep ',' ((s :: l').map stringifyString) ++ ']' :: ([] : Str)
        = '"' :: y := hy'
    rw [harg] at hmain
    have hsl : stringifyStringList (s :: l')
        = '[' :: (joinSep ',' ((s :: l').map stringifyString) ++ [']']) := rfl
    have hdw0 : (('[' : Char)
        :: (joinSep ',' ((s :: l').map stringifyString) ++ [']'])).dropWhile jsonWs
        = '[' :: (joinSep ',' ((s :: l').map stringifyString) ++ [']']) := by
      rw [List.dropWhile_cons, if_neg (by decide)]
    have hdw1 : (joinSep ',' ((s :: l').map stringifyString) ++ [']']).dropWhile jsonWs
        = '"' :: y := by
      rw [hy', List.dropWhile_cons, if_neg (by decide)]
    rw [hsl]
    simp only [List.map_cons] at hdw0 hdw1 hmain hRlen
    simp [parseJsonStringList, hdw0, hdw1, hRlen, hmain]

/-! ### Character-range facts about the serializer -/

lemma escapeChar_ge32 (c x : Char) (hx : x ∈ escapeChar c) : 32 ≤ x.toNat := by
  unfold escapeChar at hx
  by_cases h1 : c = '"'
  · simp only [h1, if_pos rfl] at hx
    rcases List.mem_cons.mp hx with rfl | hx
    · decide
    · simp at hx; subst hx; decide
  · rw [if_neg h1] at hx
    by_cases h2 : c = '\\'
    · simp only [h2, if_pos rfl] at hx
      rcases List.mem_cons.mp hx with rfl | hx
      · decide
      · simp at hx; subst hx; decide
    · rw [if_neg h2] at hx
      by_cases h3 : c = '\u0008'
      · simp only [h3, if_pos rfl] at hx
        rcases List.mem_cons.mp hx with rfl | hx
        · decide
        · simp at hx; subst hx; decide
      · rw [if_neg h3] at hx
        by_cases h4 : c = '\t'
        · simp only [h4, if_pos rfl] at hx
          rcases List.mem_cons.mp hx with rfl | hx
          · decide
          · simp at hx; subst hx; decide
        · rw [if_neg h4] at hx
          by_cases h5 : c = '\n'
          · simp only [h5, if_pos rfl] at hx
            rcases List.mem_cons.mp hx with rfl | hx
            · decide
            · simp at hx; subst hx; decide
          · rw [if_neg h5] at hx
            by_cases h6 : c = '\u000c'
            · simp only [h6, if_pos rfl] at hx
              rcases List.mem_cons.mp hx with rfl | hx
              · decide
              · simp at hx; subst hx; decide
            · rw [if_neg h6] at hx
              by_cases h7 : c = '\r'
              · simp only [h7, if_pos rfl] at hx
                rcases List.mem_cons.mp hx with rfl | hx
                · decide
                · simp at hx; subst hx; decide
              · rw [if_neg h7] at hx
                by_cases h8 : c.toNat < 32
                · rw [if_pos h8] at hx
                  have hhi : (hexDigitChar (c.toNat / 16)).toNat = 48 + c.toNat / 16
                      ∨ (hexDigitChar (c.toNat / 16)).toNat = 87 + c.toNat / 16 := by
                    unfold hexDigitChar
                    by_cases hq : c.toNat / 16 < 10
                    · exact Or.inl (by rw [if_pos hq]; exact charOfNat_toNat_small _ (by omega))
                    · exact Or.inr (by rw [if_neg hq]; exact charOfNat_toNat_small _ (by omega))
                  have hlo : (hexDigitChar (c.toNat % 16)).toNat = 48 + c.toNat % 16
                      ∨ (hexDigitChar (c.toNat % 16)).toNat = 87 + c.toNat % 16 := by
                    unfold hexDigitChar
                    by_cases hq : c.toNat % 16 < 10
                    · exact Or.inl (by rw [if_pos hq]; exact charOfNat_toNat_small _ (by omega))
                    · exact Or.inr (by rw [if_neg hq]; exact charOfNat_toNat_small _ (by omega))
                  simp only [List.mem_cons, List.not_mem_nil, or_false] at hx
                  rcases hx with rfl | rfl | rfl | rfl | rfl | rfl
                  · decide
                  · decide
                  · decide
                  · decide
                  · rcases hhi with h | h <;> omega
                  · rcases hlo with h | h <;> omega
                · rw [if_neg h8] at hx
                  simp only [List.mem_cons, List.not_mem_nil, or_false] at hx
                  subst hx
                  omega

lemma joinSep_mem (sep : Char) (parts : List Str) (x : Char)
    (hx : x ∈ joinSep sep parts) : x = sep ∨ ∃ p ∈ parts, x ∈ p := by
  induction parts with
  | nil => simp [joinSep] at hx
  | cons p parts ih =>
    cases parts with
    | nil =>
      simp only [joinSep] at hx
      exact Or.inr ⟨p, by simp, hx⟩
    | cons p2 parts' =>
      simp only [joinSep, List.mem_append, List.mem_cons] at hx
      rcases hx with hx | rfl | hx
      · exact Or.inr ⟨p, by simp, hx⟩
      · exact Or.inl rfl
      · rcases ih hx with h | ⟨q, hq, hxq⟩
        · exact Or.inl h
        · exact Or.inr ⟨q, by simp [hq], hxq⟩

lemma stringifyString_mem_ge32 (s : Str) (x : Char)
    (hx : x ∈ stringifyString s) : 32 ≤ x.toNat := by
  simp only [stringifyString, List.mem_cons, List.mem_append] at hx
  rcases hx with rfl | hx | hx
  · decide
  · obtain ⟨sub, hsub, hxsub⟩ := List.mem_flatten.mp hx
    obtain ⟨c, _, rfl⟩ := List.mem_map.mp hsub
    exact escapeChar_ge32 c x hxsub
  · simp at hx; subst hx; decide

lemma stringifyStringList_mem_ge32 (l : List Str) (x : Char)
    (hx : x ∈ stringifyStringList l) : 32 ≤ x.toNat := by
  simp only [stringifyStringList, List.mem_cons, List.mem_append] at hx
  rcases hx with rfl | hx | hx
  · decide
  · rcases joinSep_mem ',' (l.map stringifyString) x hx with rfl | ⟨p, hp, hxp⟩
    · decide
    · obtain ⟨t, _, rfl⟩ := List.mem_map.mp hp
      exact stringifyString_mem_ge32 t x hxp
  · simp at hx; subst hx; decide

lemma stringify_noNl (l : List Str) : '\n' ∉ stringifyStringList l := by
  intro h
  exact absurd (stringifyStringList_mem_ge32 l '\n' h) (by decide)

lemma jsTrim_stringify (l : List Str) :
    jsTrim (stringifyStringList l) = stringifyStringList l :=
  jsTrim_wrap '[' ']' (joinSep ',' (l.map stringifyString)) (by decide) (by decide)

/-! ### Quote-wrapping lemmas -/

lemma jsTrim_quoteWrap (v : Str) : jsTrim (quoteWrap v) = quoteWrap v :=
  jsTrim_wrap '"' '"' v (by decide) (by decide)

lemma stripQuotes_quoteWrap (v : Str) : stripQuotes (quoteWrap v) = v := by
  show stripQuotes ('"' :: (v ++ ['"'])) = v
  simp only [stripQuotes]
  rw [List.getLast?_concat, if_pos rfl, List.dropLast_concat]

lemma quoteWrap_noNl (v : Str) (hv : '\n' ∉ v) : '\n' ∉ quoteWrap v := by
  intro h
  rcases List.mem_cons.mp h with h1 | h2
  · exact absurd h1 (by decide)
  · rcases List.mem_append.mp h2 with h3 | h4
    · exact hv h3
    · simp only [List.mem_singleton] at h4
      exact absurd h4 (by decide)

/-! ### Line-shape lemmas -/

lemma goodLine_cons (c : Char) (rest : Str) (hc : jsWhitespace c = false)
    (hc2 : c ≠ '-') (hnl : '\n' ∉ c :: rest) : GoodLine (c :: rest) := by
  refine ⟨by simp, by simpa using hc, hnl, ?_⟩
  have hd3 : decide ((c :: rest).take 3 = ['-', '-', '-']) = false := by
    rw [decide_eq_false_iff_not]
    intro h
    rw [List.take_succ_cons] at h
    injection h with h1 _
    exact hc2 h1
  unfold isDashWs
  rw [hd3, Bool.false_and]

lemma generateFrontmatter_append (t e c d : Str) (tags : List Str)
    (now body : Str) :
    generateFrontmatter t e c d tags now ++ body
      = mkDoc [str "title: " ++ quoteWrap t, str "excerpt: " ++ quoteWrap e,
               str "category: " ++ quoteWrap c,
               str "date: " ++ quoteWrap (jsOr d now),
               str "tags: " ++ stringifyStringList tags] ('\n' :: body) := by
  simp [generateFrontmatter, mkDoc, List.append_assoc]

/-! ### Slug lemmas -/

lemma collapseAux_mem (p : Char → Bool) (rep : Char) (l : Str) :
    ∀ (b : Bool) (x : Char), x ∈ collapseAux p rep b l →
      x = rep ∨ (x ∈ l ∧ p x = false) := by
  induction l with
  | nil => intro b x hx; simp [collapseAux] at hx
  | cons c t ih =>
    intro b x hx
    simp only [collapseAux] at hx
    by_cases hc : p c = true
    · rw [if_pos hc] at hx
      cases b with
      | true =>
        simp only [if_pos rfl] at hx
        rcases ih true x hx with h | ⟨h1, h2⟩
        · exact Or.inl h
        · exact Or.inr ⟨by simp [h1], h2⟩
      | false =>
        simp only [Bool.false_eq_true, if_false] at hx
        rcases List.mem_cons.mp hx with rfl | hx
        · exact Or.inl rfl
        · rcases ih true x hx with h | ⟨h1, h2⟩
          · exact Or.inl h
          · exact Or.inr ⟨by simp [h1], h2⟩
    · rw [if_neg hc] at hx
      rcases List.mem_cons.mp hx with rfl | hx
      · exact Or.inr ⟨by simp, by simpa using hc⟩
      · rcases ih false x hx with h | ⟨h1, h2⟩
        · exact Or.inl h
        · exact Or.inr ⟨by simp [h1], h2⟩

lemma collapseAux_id_of_none (p : Char → Bool) (rep : Char) (l : Str)
    (hl : ∀ x ∈ l, p x = false) : ∀ b, collapseAux p rep b l = l := by
  induction l with
  | nil => intro b; rfl
  | cons c t ih =>
    intro b
    have hc := hl c (by simp)
    simp only [collapseAux, hc, Bool.false_eq_true, if_false]
    rw [ih (fun x hx => hl x (by simp [hx])) false]

lemma collapseAux_cons_pos_true {p : Char → Bool} {rep c : Char} {t : Str}
    (hc : p c = true) :
    collapseAux p rep true (c :: t) = collapseAux p rep true t := by
  simp [collapseAux, hc]

lemma collapseAux_cons_pos_false {p : Char → Bool} {rep c : Char} {t : Str}
    (hc : p c = true) :
    collapseAux p rep false (c :: t) = rep :: collapseAux p rep true t := by
  simp [collapseAux, hc]

lemma collapseAux_cons_neg {p : Char → Bool} {rep c : Char} {t : Str}
    (hc : p c = false) (b : Bool) :
    collapseAux p rep b (c :: t) = c :: collapseAux p rep false t := by
  simp [collapseAux, hc]

lemma collapseAux_idem (p : Char → Bool) (rep : Char) (hrep : p rep = true)
    (l : Str) : ∀ b, collapseAux p rep b (collapseAux p rep b l)
      = collapseAux p rep b l := by
  induction l with
  | nil => intro b; rfl
  | cons c t ih =>
    intro b
    by_cases hc : p c = true
    · cases b with
      | true =>
        rw [collapseAux_cons_pos_true hc, ih true]
      | false =>
        rw [collapseAux_cons_pos_false hc, collapseAux_cons_pos_false hrep,
          ih true]
    · have hc' : p c = false := by simpa using hc
      rw [collapseAux_cons_neg hc' b, collapseAux_cons_neg hc' b, ih false]

lemma slug_stage_chars (title : Str) (x : Char)
    (hx : x ∈ collapseRuns (fun c => c = '-') '-'
        (collapseRuns jsWhitespace '-' ((title.map lowerAscii).filter slugKeep))) :
    slugOutChar x := by
  rcases collapseAux_mem _ '-' _ false x hx with rfl | ⟨hx1, _⟩
  · exact Or.inl rfl
  · rcases collapseAux_mem _ '-' _ false x hx1 with rfl | ⟨hx2, hws⟩
    · exact Or.inl rfl
    · have hk := (List.mem_filter.mp hx2).2
      simp only [slugKeep, Bool.or_eq_true, Bool.and_eq_true,
        decide_eq_true_eq] at hk
      rcases hk with ((⟨h1, h2⟩ | ⟨h1, h2⟩) | h) | h
      · exact Or.inr (Or.inl ⟨h1, h2⟩)
      · exact Or.inr (Or.inr ⟨h1, h2⟩)
      · rw [h] at hws; exact absurd hws (by simp)
      · exact Or.inl h

lemma noWs_of_slugOut (x : Char) (h : slugOutChar x) : jsWhitespace x = false := by
  simp only [jsWhitespace, Bool.or_eq_false_iff, decide_eq_false_iff_not]
  rcases h with rfl | h | h
  · decide
  · refine ⟨⟨⟨⟨⟨?_, ?_⟩, ?_⟩, ?_⟩, ?_⟩, ?_⟩ <;> (rintro rfl; exact absurd h (by decide))
  · refine ⟨⟨⟨⟨⟨?_, ?_⟩, ?_⟩, ?_⟩, ?_⟩, ?_⟩ <;> (rintro rfl; exact absurd h (by decide))

lemma lowerAscii_id_of_slugOut (x : Char) (h : slugOutChar x) :
    lowerAscii x = x := by
  rcases h with rfl | h | h
  · decide
  · rw [lowerAscii, if_neg (by omega)]
  · rw [lowerAscii, if_neg (by omega)]

lemma slugKeep_of_slugOut (x : Char) (h : slugOutChar x) : slugKeep x = true := by
  simp only [slugKeep, Bool.or_eq_true, Bool.and_eq_true, decide_eq_true_eq]
  rcases h with rfl | h | h
  · right; rfl
  · left; left; left; exact h
  · left; left; right; exact h

lemma dropWhile_id_of_none (p : Char → Bool) (l : Str)
    (h : ∀ x ∈ l, p x = false) : l.dropWhile p = l := by
  cases l with
  | nil => rfl
  | cons c t => rw [List.dropWhile_cons, if_neg (by simp [h c (by simp)])]

lemma jsTrim_id_of_noWs (l : Str) (h : ∀ x ∈ l, jsWhitespace x = false) :
    jsTrim l = l := by
  unfold jsTrim
  rw [dropWhile_id_of_none _ l h,
    dropWhile_id_of_none _ l.reverse (fun x hx => h x (List.mem_reverse.mp hx)),
    List.reverse_reverse]

/-- The final `trim()` of `generateSlug` is a no-op: by that point every
whitespace run has been replaced by a hyphen. -/
lemma generateSlug_eq_noTrim (title : Str) :
    generateSlug title
      = collapseRuns (fun c => c = '-') '-'
          (collapseRuns jsWhitespace '-' ((title.map lowerAscii).filter slugKeep)) := by
  unfold generateSlug
  exact jsTrim_id_of_noWs _
    (fun x hx => noWs_of_slugOut x (slug_stage_chars title x hx))

/-! ### Read-time lemmas -/

lemma splitWsAux_ne_nil : ∀ (l : Str) (b : Bool) (acc : Str),
    splitWsAux b l acc ≠ [] := by
  intro l
  induction l with
  | nil => intro b acc; cases b <;> simp [splitWsAux]
  | cons c t ih =>
    intro b acc
    cases b with
    | false =>
      simp only [splitWsAux]
      by_cases hc : jsWhitespace c = true
      · simp [hc]
      · simp only [hc, Bool.false_eq_true, if_false]
        exact ih false (c :: acc)
    | true =>
      simp only [splitWsAux]
      by_cases hc : jsWhitespace c = true
      · simp only [hc, if_true]
        exact ih true []
      · simp only [hc, Bool.false_eq_true, if_false]
        exact ih false [c]

lemma jsSplitWs_length_pos (s : Str) : 1 ≤ (jsSplitWs s).length := by
  have := splitWsAux_ne_nil s false []
  cases h : splitWsAux false s [] with
  | nil => exact absurd h this
  | cons a r => simp [jsSplitWs, h]

lemma readMinutes_pos (s : Str) : 1 ≤ readMinutes s := by
  unfold readMinutes
  have := jsSplitWs_length_pos s
  omega

lemma natToStrAux_ne_nil (fuel n : Nat) (h : 1 ≤ fuel) :
    natToStrAux fuel n ≠ [] := by
  cases fuel with
  | zero => omega
  | succ f =>
    simp only [natToStrAux]
    by_cases hn : n < 10
    · simp [hn]
    · simp [hn]

lemma digitChar_eq_zero (n : Nat) (hn : n < 10) (h : digitChar n = '0') :
    n = 0 := by
  have := congrArg Char.toNat h
  rw [show digitChar n = Char.ofNat (48 + n) from rfl] at this
  rw [charOfNat_toNat_small (48 + n) (by omega)] at this
  have h48 : ('0').toNat = 48 := by decide
  omega

lemma natToStrAux_eq_zero : ∀ (fuel n : Nat), n < fuel →
    natToStrAux fuel n = ['0'] → n = 0 := by
  intro fuel
  induction fuel with
  | zero => intro n h; omega
  | succ f ih =>
    intro n hn h
    simp only [natToStrAux] at h
    by_cases h10 : n < 10
    · rw [if_pos h10] at h
      injection h with h1 _
      exact digitChar_eq_zero n h10 h1
    · rw [if_neg h10] at h
      have hne := natToStrAux_ne_nil f (n / 10) (by omega)
      have hlen := congrArg List.length h
      simp only [List.length_append, List.length_cons, List.length_nil] at hlen
      have : natToStrAux f (n / 10) = [] := List.length_eq_zero.mp (by omega)
      exact absurd this hne

lemma natToStr_eq_zero (n : Nat) (h : natToStr n = ['0']) : n = 0 :=
  natToStrAux_eq_zero (n + 1) n (by omega) h

/-! ### Reconciliation lemmas -/

lemma reconcileTags_tags (db : DB) (aid : Nat) (req : List Str) :
    (reconcileTags db aid req).tags = db.tags ++ newTagRows db req := rfl

lemma reconcileTags_article_tags (db : DB) (aid : Nat) (req : List Str) :
    (reconcileTags db aid req).article_tags
      = db.article_tags
        ++ (fetchTags db req ++ newTagRows db req).map (fun t => (aid, t.id)) := rfl

lemma newTagRows_names (db : DB) (req : List Str) :
    (newTagRows db req).map TagRow.name
      = req.filter (fun n => decide (∀ t ∈ db.tags, t.name ≠ n)) := by
  unfold newTagRows
  rw [List.map_map]
  have h1 : (TagRow.name ∘ fun p : Nat × Str => TagRow.mk (db.nextTagId + p.1) p.2)
      = Prod.snd := rfl
  rw [h1, List.enum_map_snd]
  apply List.filter_congr
  intro n hn
  rw [decide_eq_decide]
  constructor
  · intro hnot t ht hname
    exact hnot (List.mem_map.mpr
      ⟨t, List.mem_filter.mpr ⟨ht, by simp [hname, hn]⟩, hname⟩)
  · intro hall hmem
    obtain ⟨t, htf, hname⟩ := List.mem_map.mp hmem
    exact hall t (List.mem_filter.mp htf).1 hname

lemma reconcile_covers (db : DB) (aid : Nat) (req : List Str) (n : Str)
    (hn : n ∈ req) : ∃ t ∈ (reconcileTags db aid req).tags, t.name = n := by
  by_cases h : ∃ t ∈ db.tags, t.name = n
  · obtain ⟨t, ht, hname⟩ := h
    exact ⟨t, by
      rw [reconcileTags_tags]
      exact List.mem_append.mpr (Or.inl ht), hname⟩
  · push_neg at h
    have hmem : n ∈ (newTagRows db req).map TagRow.name := by
      rw [newTagRows_names]
      exact List.mem_filter.mpr ⟨hn, by simpa using h⟩
    obtain ⟨t, htm, hname⟩ := List.mem_map.mp hmem
    exact ⟨t, by
      rw [reconcileTags_tags]
      exact List.mem_append.mpr (Or.inr htm), hname⟩

lemma newTagRows_nil_of_covered (db : DB) (req : List Str)
    (h : ∀ n ∈ req, ∃ t ∈ db.tags, t.name = n) : newTagRows db req = [] := by
  unfold newTagRows
  have hfil : req.filter
      (fun n => decide (n ∉ (fetchTags db req).map TagRow.name)) = [] := by
    apply List.filter_eq_nil_iff.mpr
    intro n hn
    simp only [decide_eq_true_eq, Decidable.not_not, not_not]
    obtain ⟨t, ht, hname⟩ := h n hn
    exact List.mem_map.mpr ⟨t, List.mem_filter.mpr ⟨ht, by simp [hname, hn]⟩, hname⟩
  rw [hfil]
  rfl

lemma reconcile_twice_tags (db : DB) (a1 a2 : Nat) (req : List Str) :
    (reconcileTags (reconcileTags db a1 req) a2 req).tags
      = (reconcileTags db a1 req).tags := by
  rw [reconcileTags_tags (reconcileTags db a1 req)]
  rw [newTagRows_nil_of_covered _ req (fun n hn => reconcile_covers db a1 req n hn),
    List.append_nil]

/-! ### Save-handler lemmas -/

lemma assocFor_delete (db : DB) (aid : Nat) :
    assocFor (deleteArticleTags db aid) aid = [] := by
  show (db.article_tags.filter (fun p => decide (p.1 ≠ aid))).filter
      (fun p => decide (p.1 = aid)) = []
  rw [List.filter_filter]
  apply List.filter_eq_nil_iff.mpr
  intro a _
  simp

/-! ### Auxiliary membership lemma for line shapes -/

lemma noNl_prefixed (pre v : Str) (hpre : '\n' ∉ pre) (hv : '\n' ∉ v) :
    '\n' ∉ pre ++ v := by
  intro h
  rcases List.mem_append.mp h with h | h
  · exact hpre h
  · exact hv h

/-! ### The claims -/

/-- C1.  For the exact input markdown
`---\ntitle: "T"\nexcerpt: "E"\ncategory: "C"\ndate: "2024-01-01"\ntags: ["x","y"]\n---\n\nBody text here.`
with filename `test.md`, the ingestion pipeline persists exactly one
article with title `T`, excerpt `E`, category `C`, slug `t`, status
`draft` and null `html_content`, and creates exactly two article-tag
associations, one for a tag row named `x` and one for a tag row named
`y`. -/
theorem c1_end_to_end_ingestion :
    processMarkdown c1Input (some (str "test.md"))
        (str "2024-06-01T00:00:00.000Z") ⟨[], [], [], 0, 0⟩
      = .ok ⟨[⟨0, str "T", str "t", str "E", str "C", str "1 min read",
                .draft, str "Body text here.", none, str "2024-01-01"⟩],
             [⟨0, str "x"⟩, ⟨1, str "y"⟩],
             [(0, 0), (0, 1)], 1, 2⟩ := by
  rfl

/-- C2.  Tag reconciliation is a set union: the tag table grows by
exactly the requested names with no case-sensitive match among the
existing rows (in request order); one association row is emitted per
fetched-or-inserted tag, linked to the target article; reconciling
`["a","b"]` when `a` (id 7) already exists inserts only `b` and links
both; and running the same reconciliation twice in sequence inserts no
tag rows the second time. -/
theorem c2_tag_reconciliation_set_union :
    (∀ (db : DB) (aid : Nat) (req : List Str),
        (reconcileTags db aid req).tags = db.tags ++ newTagRows db req
        ∧ (newTagRows db req).map TagRow.name
            = req.filter (fun n => decide (∀ t ∈ db.tags, t.name ≠ n))
        ∧ (reconcileTags db aid req).article_tags
            = db.article_tags
              ++ (fetchTags db req ++ newTagRows db req).map (fun t => (aid, t.id)))
    ∧ (reconcileTags c2Db 3 [str "a", str "b"]).tags
        = [⟨7, str "a"⟩, ⟨8, str "b"⟩]
    ∧ (reconcileTags c2Db 3 [str "a", str "b"]).article_tags = [(3, 7), (3, 8)]
    ∧ (∀ (db : DB) (a1 a2 : Nat) (req : List Str),
        (reconcileTags (reconcileTags db a1 req) a2 req).tags
          = (reconcileTags db a1 req).tags) := by
  refine ⟨fun db aid req => ⟨reconcileTags_tags db aid req,
    newTagRows_names db req, reconcileTags_article_tags db aid req⟩,
    by decide, by decide, reconcile_twice_tags⟩

/-- C3.  When the input has no complete leading frontmatter block (the
regex does not match — no leading `---`, or a malformed block such as a
missing closing delimiter), `parseFrontmatter` returns null metadata
and the entire original input, character for character, as content. -/
theorem c3_no_frontmatter_identity (s : Str) (h : regexMatch s = none) :
    parseFrontmatter s = ⟨s, none⟩ := by
  simp [parseFrontmatter, h]

/-- Witness for C3 at a document whose stray `---` lines never form a
complete block: the whole text, stray delimiters included, comes back
as content. -/
theorem c3_no_frontmatter_identity_witness :
    regexMatch c3Doc = none ∧ parseFrontmatter c3Doc = ⟨c3Doc, none⟩ :=
  ⟨by decide, c3_no_frontmatter_identity c3Doc (by decide)⟩

/-- Counterexample to C4 as stated: `frontmatter.tags = JSON.parse(value)`
is unchecked, so a tags literal that is valid JSON but not a list
literal does not become the empty list — `tags: "abc"` leaves the tags
field holding the string `abc`, and `tags: [1,2]` the number list —
contradicting the claim's "a malformed tags literal yields an empty
tags list". -/
theorem c4_tags_literal_counterexample :
    ((parseFrontmatterDyn (mkDoc [str "title: " ++ str "\"T\"",
          str "tags: " ++ str "\"abc\""] (str "Body"))).frontmatter.map
        FrontmatterDyn.tags)
      = some (JsonVal.str (str "abc"))
    ∧ JsonVal.str (str "abc") ≠ JsonVal.arr []
    ∧ ((parseFrontmatterDyn (mkDoc [str "title: " ++ str "\"T\"",
          str "tags: " ++ str "[1,2]"] (str "Body"))).frontmatter.map
        FrontmatterDyn.tags)
      = some (JsonVal.arr [JsonVal.num (str "1"), JsonVal.num (str "2")]) := by
  refine ⟨rfl, fun h => JsonVal.noConfusion h, rfl⟩

/-- C4 amended.  For a well-formed frontmatter block, each recognized
scalar field equals the source value with surrounding whitespace
trimmed and one leading and one trailing double quote stripped, and
unrecognized keys are ignored; the tags field is the exact JSON value
denoted by the tags literal whenever it is valid JSON — the exact list
for a valid string-list literal, but a valid non-list literal is
assigned as-is, unchecked — and only a tags literal that is not valid
JSON at all is replaced by the empty list, with no error raised by the
parser. -/
theorem c4_frontmatter_field_parsing_amended (t e c d tg body : Str)
    (extras : List Str)
    (ht : '\n' ∉ t) (he : '\n' ∉ e) (hcat : '\n' ∉ c) (hd : '\n' ∉ d)
    (htg : '\n' ∉ tg)
    (hex : ∀ l ∈ extras, GoodLine l ∧ (splitOn ':' l).headD [] ∉ recognizedKeys) :
    parseFrontmatterDyn (mkDoc ([str "title: " ++ t, str "excerpt: " ++ e,
        str "category: " ++ c, str "date: " ++ d, str "tags: " ++ tg]
        ++ extras) body)
      = ⟨jsTrim body,
         some ⟨stripQuotes (jsTrim t), stripQuotes (jsTrim e),
               stripQuotes (jsTrim c), stripQuotes (jsTrim d),
               (jsonParse (jsTrim tg)).getD (JsonVal.arr [])⟩⟩ := by
  rw [parseFrontmatterDyn_mkDoc _ body (by simp) ?hgood,
    fmFoldDyn_canonical t e c d tg extras (fun l hl => (hex l hl).2)]
  case hgood =>
    intro l hl
    rcases List.mem_append.mp hl with hl | hl
    · simp only [List.mem_cons, List.not_mem_nil, or_false] at hl
      rcases hl with rfl | rfl | rfl | rfl | rfl
      · exact goodLine_cons 't' (str "itle: " ++ t) (by decide) (by decide)
          (noNl_prefixed (str "title: ") t (by decide) ht)
      · exact goodLine_cons 'e' (str "xcerpt: " ++ e) (by decide) (by decide)
          (noNl_prefixed (str "excerpt: ") e (by decide) he)
      · exact goodLine_cons 'c' (str "ategory: " ++ c) (by decide) (by decide)
          (noNl_prefixed (str "category: ") c (by decide) hcat)
      · exact goodLine_cons 'd' (str "ate: " ++ d) (by decide) (by decide)
          (noNl_prefixed (str "date: ") d (by decide) hd)
      · exact goodLine_cons 't' (str "ags: " ++ tg) (by decide) (by decide)
          (noNl_prefixed (str "tags: ") tg (by decide) htg)
    · exact (hex l hl).1

/-- Witness for C4 amended at a concrete block whose tags literal is a
valid two-element string list with inner whitespace, with quoted
scalars and one unrecognized extra line. -/
theorem c4_frontmatter_field_parsing_amended_witness :
    parseFrontmatterDyn (mkDoc ([str "title: " ++ str "\"My Title\"",
        str "excerpt: " ++ str "\"E\"", str "category: " ++ str "\"C\"",
        str "date: " ++ str "2024-01-01", str "tags: " ++ str "[\"x\", \"y\"]"]
        ++ [str "author: someone"]) (str "Body here"))
      = ⟨jsTrim (str "Body here"),
         some ⟨stripQuotes (jsTrim (str "\"My Title\"")),
               stripQuotes (jsTrim (str "\"E\"")),
               stripQuotes (jsTrim (str "\"C\"")),
               stripQuotes (jsTrim (str "2024-01-01")),
               (jsonParse (jsTrim (str "[\"x\", \"y\"]"))).getD
                 (JsonVal.arr [])⟩⟩ :=
  c4_frontmatter_field_parsing_amended _ _ _ _ _ _ _ (by decide) (by decide)
    (by decide) (by decide) (by decide) (by decide)

/-- Counterexample to C5 as stated: the source's `generateSlug` ends
with `trim()`, which removes whitespace, not hyphens — by that point no
whitespace remains, so leading and trailing hyphens survive.  For the
title `-x` the code produces `-x`, which begins with a hyphen, while
the spec's pipeline (with hyphen trimming) produces `x`. -/
theorem c5_slug_spec_counterexample :
    generateSlug (str "-x") = str "-x"
    ∧ slugSpec (str "-x") = str "x"
    ∧ generateSlug (str "-x") ≠ slugSpec (str "-x")
    ∧ (generateSlug (str "-x")).headD 'a' = '-' := by
  refine ⟨by decide, by decide, by decide, by decide⟩

/-- C5 amended.  For every title, the generated slug equals: lower-case
the title, remove every character that is not a-z, 0-9, whitespace, or
hyphen, collapse each whitespace run to a single hyphen, and collapse
repeated hyphens to one; the final `trim()` removes only whitespace and
is a no-op at that stage, so no hyphen trimming occurs and the output
may begin or end with a hyphen. -/
theorem c5_slug_pipeline_amended (title : Str) :
    generateSlug title
      = collapseRuns (fun c => c = '-') '-'
          (collapseRuns jsWhitespace '-'
            ((title.map lowerAscii).filter slugKeep)) :=
  generateSlug_eq_noTrim title

/-- C6.  Slug generation is idempotent, and the title
`Hello, World!  Test` yields `hello-world-test`. -/
theorem c6_slug_idempotent :
    (∀ s : Str, generateSlug (generateSlug s) = generateSlug s)
    ∧ generateSlug (str "Hello, World!  Test") = str "hello-world-test" := by
  constructor
  · intro s
    have hO := generateSlug_eq_noTrim s
    have hchars : ∀ x ∈ generateSlug s, slugOutChar x := by
      rw [hO]
      exact fun x hx => slug_stage_chars s x hx
    have hmap : (generateSlug s).map lowerAscii = generateSlug s := by
      calc (generateSlug s).map lowerAscii
          = (generateSlug s).map id :=
            List.map_congr_left
              (fun x hx => lowerAscii_id_of_slugOut x (hchars x hx))
        _ = generateSlug s := List.map_id _
    have hfilter : (generateSlug s).filter slugKeep = generateSlug s :=
      List.filter_eq_self.mpr (fun x hx => slugKeep_of_slugOut x (hchars x hx))
    have hws : collapseRuns jsWhitespace '-' (generateSlug s) = generateSlug s :=
      collapseAux_id_of_none jsWhitespace '-' (generateSlug s)
        (fun x hx => noWs_of_slugOut x (hchars x hx)) false
    have hhyph : collapseRuns (fun c => c = '-') '-' (generateSlug s)
        = generateSlug s := by
      rw [hO]
      exact collapseAux_idem (fun c => c = '-') '-' (by decide) _ false
    have htrim : jsTrim (generateSlug s) = generateSlug s :=
      jsTrim_id_of_noWs _ (fun x hx => noWs_of_slugOut x (hchars x hx))
    show jsTrim (collapseRuns (fun c => c = '-') '-'
        (collapseRuns jsWhitespace '-'
          (((generateSlug s).map lowerAscii).filter slugKeep)))
      = generateSlug s
    rw [hmap, hfilter, hws, hhyph, htrim]
  · decide

set_option maxRecDepth 8000

/-- C7.  `estimateReadTime` formats the token count of a
whitespace-runs split, divided by 200 words per minute and rounded up,
as `"<N> min read"`; the minute count is never zero (splitting always
yields at least one token, the empty body included), a 400-word body
yields `2 min read` and the empty body yields `1 min read`. -/
theorem c7_read_time_spec :
    (∀ content : Str,
        estimateReadTime content
            = natToStr (readMinutes content) ++ str " min read"
        ∧ 1 ≤ readMinutes content
        ∧ 200 * (readMinutes content - 1) < (jsSplitWs content).length
        ∧ (jsSplitWs content).length ≤ 200 * readMinutes content
        ∧ estimateReadTime content ≠ str "0 min read")
    ∧ estimateReadTime [] = str "1 min read"
    ∧ estimateReadTime fourHundredWords = str "2 min read" := by
  refine ⟨fun content => ⟨rfl, readMinutes_pos content, ?_, ?_, ?_⟩,
    by decide, by decide⟩
  · have h := jsSplitWs_length_pos content
    unfold readMinutes
    omega
  · unfold readMinutes
    omega
  · intro h
    have h0 : natToStr (readMinutes content) = ['0'] := by
      have happ : natToStr (readMinutes content) ++ str " min read"
          = ['0'] ++ str " min read" := h
      exact List.append_cancel_right happ
    have hz := natToStr_eq_zero _ h0
    have hp := readMinutes_pos content
    omega

/-- Counterexample to C8 as stated: in `ArticleManager.replaceArticle`
the delete of prior associations sits inside `if (tags.length > 0)`, so
a tag-replacing save with an empty parsed tag list leaves the
article's prior association rows in place rather than deleting them
unconditionally. -/
theorem c8_unconditional_delete_counterexample :
    (managerReplaceArticle c8Db 9 (str "t2") (str "e2") (str "c2")
        (str "m2") (str "d2") []).article_tags = [(9, 7)] := by
  decide

/-- C8 amended.  The delete-then-reinsert shape holds per handler: the
generic association delete empties an article's association set; the
Editor and SettingsModal saves pass through an intermediate state with
zero associations for the article regardless of the new tag list (so a
failure between the delete and the re-insert leaves the article with
zero tags — no transaction wraps the steps); `replaceArticle` reaches
such a state only when the new tag list is non-empty, and with an
empty list it leaves the prior associations untouched. -/
theorem c8_tag_replacement_amended :
    (∀ (db : DB) (aid : Nat), assocFor (deleteArticleTags db aid) aid = [])
    ∧ (∀ (db : DB) (article : ArticleRow) (tags : List Str)
          (status : ArticleStatus) (now : Str),
        ∃ mid : DB, assocFor mid article.id = []
          ∧ editorHandleSave db article tags status now
              = (if tags = [] then mid else reconcileTags mid article.id tags))
    ∧ (∀ (db : DB) (article : ArticleRow) (tags : List Str),
        ∃ mid : DB, assocFor mid article.id = []
          ∧ settingsModalHandleSave db article tags
              = (if tags = [] then mid else reconcileTags mid article.id tags))
    ∧ (∀ (db : DB) (aid : Nat) (title excerpt category md date : Str)
          (tags : List Str), tags ≠ [] →
        ∃ mid : DB, assocFor mid aid = []
          ∧ managerReplaceArticle db aid title excerpt category md date tags
              = reconcileTags mid aid tags)
    ∧ (∀ (db : DB) (aid : Nat) (title excerpt category md date : Str),
        (managerReplaceArticle db aid title excerpt category md
            date []).article_tags
          = db.article_tags) := by
  refine ⟨assocFor_delete, ?_, ?_, ?_, ?_⟩
  · intro db article tags status now
    exact ⟨deleteArticleTags (upsertArticle db
      { article with
        markdown_content := generateFrontmatter article.title article.excerpt
          article.category article.date tags now ++ article.markdown_content,
        status := status }) article.id, assocFor_delete _ _, rfl⟩
  · intro db article tags
    exact ⟨deleteArticleTags (upsertArticle db article) article.id,
      assocFor_delete _ _, rfl⟩
  · intro db aid title excerpt category md date tags htags
    refine ⟨deleteArticleTags
      { db with articles := db.articles.map (fun a =>
          if a.id = aid then
            { a with title := title, excerpt := excerpt, category := category,
                     markdown_content := md, date := date }
          else a) } aid, assocFor_delete _ _, ?_⟩
    simp [managerReplaceArticle, htags]
  · intro db aid title excerpt category md date
    simp [managerReplaceArticle]

/-- Witness for C8 amended, applying the `replaceArticle` conjunct at a
concrete store with a non-empty tag list. -/
theorem c8_tag_replacement_amended_witness :
    ∃ mid : DB, assocFor mid 9 = []
      ∧ managerReplaceArticle c8Db 9 (str "t2") (str "e2") (str "c2")
          (str "m2") (str "d2") [str "new"]
        = reconcileTags mid 9 [str "new"] :=
  c8_tag_replacement_amended.2.2.2.1 c8Db 9 (str "t2") (str "e2") (str "c2")
    (str "m2") (str "d2") [str "new"] (by decide)

/-- Counterexample to C9 as stated: an article whose parsed date is
empty (a block with no date line yields `date = ""`) does not round
trip — `generateFrontmatter` substitutes the current timestamp for a
falsy date, so parsing the serialized document returns that timestamp,
not the original empty date. -/
theorem c9_roundtrip_counterexample :
    parseFrontmatter (generateFrontmatter (str "T") (str "E") (str "C") []
        [str "x"] (str "NOW-TIME") ++ str "B")
      ≠ ⟨str "B", some ⟨str "T", str "E", str "C", [], [str "x"]⟩⟩
    ∧ parseFrontmatter (generateFrontmatter (str "T") (str "E") (str "C") []
        [str "x"] (str "NOW-TIME") ++ str "B")
      = ⟨str "B", some ⟨str "T", str "E", str "C", str "NOW-TIME", [str "x"]⟩⟩ :=
  ⟨by decide, by decide⟩

/-- C9 amended.  Serializing parsed-origin metadata with
`generateFrontmatter` and re-parsing recovers the same title, excerpt,
category, date and tags and the body unchanged, for every newline-free
scalar set, every tag list, and every trimmed body — provided the date
is non-empty (an empty date is replaced by the current timestamp at
serialization time, the counterexample above). -/
theorem c9_roundtrip_amended (t e c d : Str) (tags : List Str)
    (body now : Str)
    (ht : '\n' ∉ t) (he : '\n' ∉ e) (hc : '\n' ∉ c) (hd : '\n' ∉ d)
    (hd0 : d ≠ []) (hb : jsTrim body = body) :
    parseFrontmatter (generateFrontmatter t e c d tags now ++ body)
      = ⟨body, some ⟨t, e, c, d, tags⟩⟩ := by
  rw [generateFrontmatter_append]
  have hjs : jsOr d now = d := by simp [jsOr, hd0]
  rw [hjs]
  rw [parseFrontmatter_mkDoc _ ('\n' :: body) (by simp) ?hgood]
  · have hlines : [str "title: " ++ quoteWrap t, str "excerpt: " ++ quoteWrap e,
        str "category: " ++ quoteWrap c, str "date: " ++ quoteWrap d,
        str "tags: " ++ stringifyStringList tags]
        = [str "title: " ++ quoteWrap t, str "excerpt: " ++ quoteWrap e,
           str "category: " ++ quoteWrap c, str "date: " ++ quoteWrap d,
           str "tags: " ++ stringifyStringList tags] ++ [] := by simp
    rw [hlines, fmFold_canonical _ _ _ _ _ [] (by simp)]
    have htr : jsTrim ('\n' :: body) = body := by
      have h1 : jsTrim ('\n' :: body) = jsTrim body :=
        jsTrim_ws_append ['\n'] body (by decide)
      rw [h1, hb]
    rw [htr, jsTrim_quoteWrap, jsTrim_quoteWrap, jsTrim_quoteWrap,
      jsTrim_quoteWrap, stripQuotes_quoteWrap, stripQuotes_quoteWrap,
      stripQuotes_quoteWrap, stripQuotes_quoteWrap, jsTrim_stringify,
      parseJson_stringify, Option.getD_some]
  case hgood =>
    intro l hl
    simp only [List.mem_cons, List.not_mem_nil, or_false] at hl
    rcases hl with rfl | rfl | rfl | rfl | rfl
    · exact goodLine_cons 't' (str "itle: " ++ quoteWrap t) (by decide)
        (by decide)
        (noNl_prefixed (str "title: ") (quoteWrap t) (by decide)
          (quoteWrap_noNl t ht))
    · exact goodLine_cons 'e' (str "xcerpt: " ++ quoteWrap e) (by decide)
        (by decide)
        (noNl_prefixed (str "excerpt: ") (quoteWrap e) (by decide)
          (quoteWrap_noNl e he))
    · exact goodLine_cons 'c' (str "ategory: " ++ quoteWrap c) (by decide)
        (by decide)
        (noNl_prefixed (str "category: ") (quoteWrap c) (by decide)
          (quoteWrap_noNl c hc))
    · exact goodLine_cons 'd' (str "ate: " ++ quoteWrap d) (by decide)
        (by decide)
        (noNl_prefixed (str "date: ") (quoteWrap d) (by decide)
          (quoteWrap_noNl d hd))
    · exact goodLine_cons 't' (str "ags: " ++ stringifyStringList tags)
        (by decide) (by decide)
        (noNl_prefixed (str "tags: ") (stringifyStringList tags) (by decide)
          (stringify_noNl tags))

/-- Witness for C9 amended at concrete metadata with a space-bearing
tag and body. -/
theorem c9_roundtrip_amended_witness :
    parseFrontmatter (generateFrontmatter (str "T") (str "E & F") (str "C")
        (str "2024-01-01") [str "x", str "a b"] (str "NOW") ++ str "Body")
      = ⟨str "Body", some ⟨str "T", str "E & F", str "C", str "2024-01-01",
          [str "x", str "a b"]⟩⟩ :=
  c9_roundtrip_amended _ _ _ _ _ _ _ (by decide) (by decide) (by decide)
    (by decide) (by decide) (by decide)

/-- C10.  Reconciliation performs no deduplication within the request:
when the requested list repeats a new name (`["a","a"]` with no
existing row named `a`), two tag rows named `a` are bulk-inserted and
two association rows are emitted, in one non-concurrent request. -/
theorem c10_duplicate_tags_duplicated :
    (reconcileTags ⟨[], [], [], 0, 0⟩ 0 [str "a", str "a"]).tags
        = [⟨0, str "a"⟩, ⟨1, str "a"⟩]
    ∧ (reconcileTags ⟨[], [], [], 0, 0⟩ 0 [str "a", str "a"]).article_tags
        = [(0, 0), (0, 1)] := by
  refine ⟨by decide, by decide⟩
